import Mathlib

/-!
Shallow embedding of `src/Arbitrary-precision-integer-calculator.py` (class
`BigInt` and its helper functions).  Digits are Python ints (ℤ); the base is a
natural number.  Python exceptions are modelled by `Except PyErr`; loops whose
termination Python does not guarantee are given explicit fuel, and running out
of fuel is reported as `PyErr.nonTermination` (this also stands for Python's
`RecursionError` on unbounded recursion).  Note that on ℤ, `/` is `Int.ediv`
and `%` is `Int.emod`, which agree with Python's `//` and `%` whenever the
divisor is positive — the only case the source exercises (divisor = base > 0).
-/

/-- Errors raised by the Python code: `ValueError` from `_validate_digits` or
`int(char, base)` is `outOfRangeDigit`; `ZeroDivisionError` is
`divisionByZero`; `ValueError` from `factorial` is `invalidDomain`;
`TypeError` from comparing two `BigInt`s with `<` (no `__lt__` is defined) is
`typeError`; `IndexError` from `self.digits[0]` on an empty digit list is
`indexError`; `nonTermination` models `RecursionError` / a loop that is not
known to stop. -/
inductive PyErr where
  | outOfRangeDigit
  | divisionByZero
  | invalidDomain
  | typeError
  | indexError
  | nonTermination
deriving DecidableEq

deriving instance DecidableEq for Except

/-- The `BigInt` object: a base and a most-significant-first list of digit
values (lines 2-4 of the source).  Negative numbers are represented by
negating every digit. -/
structure BigInt where
  base : ℕ
  digits : List ℤ
deriving DecidableEq

namespace BigInt

/-- Model of `_validate_digits` (lines 21-25): raise `ValueError` if any digit `d` has
`d < 0 or d >= base`. -/
def validate_digits (base : ℕ) (digits : List ℤ) : Except PyErr Unit :=
  if digits.all (fun d => decide (0 ≤ d ∧ d < (base : ℤ))) then .ok ()
  else .error .outOfRangeDigit

/-- Digit value of a character, as accepted by Python's `int(char, base)`:
`0`-`9`, `a`-`z`, `A`-`Z`. -/
def charDigit (c : Char) : Option ℕ :=
  if '0' ≤ c ∧ c ≤ '9' then some (c.toNat - '0'.toNat)
  else if 'a' ≤ c ∧ c ≤ 'z' then some (c.toNat - 'a'.toNat + 10)
  else if 'A' ≤ c ∧ c ≤ 'Z' then some (c.toNat - 'A'.toNat + 10)
  else none

/-- Python's `int(char, base)` on a single character (used at line 42):
`ValueError` unless `2 ≤ base ≤ 36` and the character's digit value is below
the base. -/
def intOfChar (c : Char) (base : ℕ) : Except PyErr ℤ :=
  if base < 2 ∨ 36 < base then .error .outOfRangeDigit
  else
    match charDigit c with
    | some v => if v < base then .ok (v : ℤ) else .error .outOfRangeDigit
    | none => .error .outOfRangeDigit

/-- Python's `str.strip()` (line 30): drop leading and trailing whitespace. -/
def pyStrip (s : List Char) : List Char :=
  ((s.dropWhile Char.isWhitespace).reverse.dropWhile Char.isWhitespace).reverse

/-- Model of `from_str` (lines 27-45): strip, take one leading `-` as the sign, map
`"0"` to `[0]`, otherwise parse each character with `int(char, base)`, and
negate every digit when the sign is negative.  Returns the digit list
(validation happens afterwards, in `__init__`). -/
def from_str (s : List Char) (base : ℕ) : Except PyErr (List ℤ) := do
  let v := pyStrip s
  let (sign, v) : ℤ × List Char :=
    match v with
    | '-' :: rest => (-1, rest)
    | _ => (1, v)
  let digits ←
    if v = ['0'] then pure [(0 : ℤ)]
    else v.mapM (fun c => intOfChar c base)
  pure (if sign = -1 then digits.map (fun d => -d) else digits)

/-- The digit-extraction loop of `__init__` for a positive int (lines 9-11):
`while value > 0: digits.append(value % base); value //= base`, producing the
least-significant digit first.  The fuel bounds the iteration count; for any
`base ≥ 2` the caller's fuel is ample. -/
def intDigitsLoop (base : ℕ) : ℕ → ℤ → List ℤ
  | 0, _ => []
  | fuel + 1, v =>
    if 0 < v then (v % (base : ℤ)) :: intDigitsLoop base fuel (v / (base : ℤ))
    else []

/-- Model of `BigInt(value: int, base)` (lines 2-19): build the digit list (empty when
`value < 0`, since the loop only runs while `value > 0`), then validate. -/
def ofInt (v : ℤ) (base : ℕ) : Except PyErr BigInt := do
  let digits := if v = 0 then [(0 : ℤ)] else (intDigitsLoop base (v.natAbs + 1) v).reverse
  let _ ← validate_digits base digits
  pure ⟨base, digits⟩

/-- Model of `BigInt(value: str, base)` (lines 2-19): `from_str`, then validate. -/
def ofStr (s : List Char) (base : ℕ) : Except PyErr BigInt := do
  let digits ← from_str s base
  let _ ← validate_digits base digits
  pure ⟨base, digits⟩

/-- Model of `BigInt(value: list, base)` (lines 2-19): digits taken verbatim, then
validated. -/
def ofList (digits : List ℤ) (base : ℕ) : Except PyErr BigInt := do
  let _ ← validate_digits base digits
  pure ⟨base, digits⟩

/-- Decimal character list of a natural number, as Python's `str(n)` renders
`abs(digit)` (fuelled division loop; the fuel `n+1` always suffices). -/
def natChars (fuel n : ℕ) : List Char :=
  match fuel with
  | 0 => []
  | fuel + 1 =>
    if n < 10 then [Char.ofNat (48 + n)]
    else natChars fuel (n / 10) ++ [Char.ofNat (48 + n % 10)]

/-- Model of `__str__` (lines 47-51): a leading `-` when the list is non-empty and its
first digit is negative, then `str(abs(d))` for every digit, concatenated. -/
def toStr (x : BigInt) : List Char :=
  let body := (x.digits.map (fun d => natChars (d.natAbs + 1) d.natAbs)).flatten
  match x.digits with
  | d :: _ => if d < 0 then '-' :: body else body
  | [] => body

/-- Model of `to_int` (lines 56-60): fold `result*base + abs(digit)` over the digits,
then flip the sign if `digits[0] < 0`; `IndexError` on an empty digit list
(the fold itself succeeds first, as in Python). -/
def to_int (x : BigInt) : Except PyErr ℤ :=
  let result := x.digits.foldl (fun r d => r * (x.base : ℤ) + (d.natAbs : ℤ)) 0
  match x.digits with
  | [] => .error .indexError
  | d :: _ => .ok (result * (if 0 ≤ d then 1 else -1))

/-- Model of `_normalize` (lines 62-65) and the remainder-stripping loop of division
(lines 194-195, 222-223): pop the first digit while the list is longer than
one and starts with `0`. -/
def normalize : List ℤ → List ℤ
  | [] => []
  | [d] => [d]
  | d :: e :: rest => if d = 0 then normalize (e :: rest) else d :: e :: rest

/-- Model of `__abs__` (lines 67-72): same base, absolute value of every digit. -/
def pyAbs (x : BigInt) : BigInt :=
  ⟨x.base, x.digits.map (fun d => |d|)⟩

/-- Model of `__neg__` (lines 74-79): same base, every digit negated. -/
def pyNeg (x : BigInt) : BigInt :=
  ⟨x.base, x.digits.map (fun d => -d)⟩

/-- Model of `self.digits[0]`: `IndexError` when the digit list is empty. -/
def digitsHead (x : BigInt) : Except PyErr ℤ :=
  match x.digits with
  | [] => .error .indexError
  | d :: _ => .ok d

/-- The carrying loop of `__add__` (lines 89-103) over the reversed
(least-significant-first) absolute digit lists.  The counter plays the role of
`range(max_len)`: out-of-range positions read as `0`; a final non-zero carry
is appended. -/
def addLoop (base : ℕ) : ℕ → List ℤ → List ℤ → ℤ → List ℤ
  | 0, _, _, carry => if carry ≠ 0 then [carry] else []
  | n + 1, a, b, carry =>
    (a.headD 0 + b.headD 0 + carry) % (base : ℤ) ::
      addLoop base n a.tail b.tail ((a.headD 0 + b.headD 0 + carry) / (base : ℤ))

/-- Tag distinguishing `__add__` from `__sub__` in their mutual recursion. -/
inductive AddSubOp where
  | add
  | sub
deriving DecidableEq

/-- Model of `__add__` (lines 81-109) and `__sub__` (lines 111-147) as one fuelled
mutually recursive function.

`__add__`: on mixed signs, delegate to `__sub__` (`other - abs(self)` /
`self - abs(other)`); otherwise add the absolute digit lists with carry in
`self.base`, apply the common sign, normalize, and return a default-base
(`10`) result.

`__sub__`: `(-,-)` delegates to `abs(other) - abs(self)`; `(-,+)` delegates to
`-abs(self) - other`, which recurses with the same sign pattern forever
(Python's `RecursionError`); `(+,-)` delegates to `self + abs(other)`.  In the
remaining `(+,+)` case Python evaluates `abs(self) < abs(other)` at line 121,
which raises `TypeError` because `BigInt` defines no `__lt__`; lines 122-147
are therefore unreachable and the case is modelled as that error. -/
def addSub : ℕ → AddSubOp → BigInt → BigInt → Except PyErr BigInt
  | 0, _, _, _ => .error .nonTermination
  | fuel + 1, op, x, y => do
    let dx ← digitsHead x
    let dy ← digitsHead y
    match op with
    | .add =>
      if dx < 0 ∧ 0 ≤ dy then addSub fuel .sub y (pyAbs x)
      else if 0 ≤ dx ∧ dy < 0 then addSub fuel .sub x (pyAbs y)
      else
        let sign : ℤ := if 0 ≤ dx then 1 else -1
        let a := (x.digits.map (fun d => |d|)).reverse
        let b := (y.digits.map (fun d => |d|)).reverse
        let rd := (addLoop x.base (max a.length b.length) a b 0).reverse
        pure ⟨10, normalize (rd.map (fun d => sign * d))⟩
    | .sub =>
      if dx < 0 ∧ dy < 0 then addSub fuel .sub (pyAbs y) (pyAbs x)
      else if dx < 0 then addSub fuel .sub (pyNeg (pyAbs x)) y
      else if dy < 0 then addSub fuel .add x (pyAbs y)
      else .error .typeError

/-- Model of `__add__` at the top level (the fuel is far beyond any terminating path,
which uses at most depth 3). -/
def add (x y : BigInt) : Except PyErr BigInt :=
  addSub 1000 .add x y

/-- Model of `__sub__` at the top level. -/
def sub (x y : BigInt) : Except PyErr BigInt :=
  addSub 1000 .sub x y

/-- Inner loop of `__mul__` (lines 163-166): `j` runs from `len(b)-1` down to
`0`; the counter is the number of remaining `j` values.  Returns the updated
result digits and the final carry. -/
def mulJ (base : ℕ) (ai : ℤ) (b : List ℤ) (i : ℕ) :
    ℕ → List ℤ → ℤ → List ℤ × ℤ
  | 0, rd, carry => (rd, carry)
  | j + 1, rd, carry =>
    mulJ base ai b i j
      (rd.set (i + j + 1) ((ai * b.getD j 0 + rd.getD (i + j + 1) 0 + carry) % (base : ℤ)))
      ((ai * b.getD j 0 + rd.getD (i + j + 1) 0 + carry) / (base : ℤ))

/-- Outer loop of `__mul__` (lines 161-167): `i` runs from `len(a)-1` down to
`0`; after each inner loop the final carry is stored at slot `i` (Python's
`result_digits[i + j]` with `j = 0`). -/
def mulI (base : ℕ) (a b : List ℤ) : ℕ → List ℤ → List ℤ
  | 0, rd => rd
  | i + 1, rd =>
    mulI base a b i
      ((mulJ base (a.getD i 0) b i b.length rd 0).1.set i
        (mulJ base (a.getD i 0) b i b.length rd 0).2)

/-- Model of `__mul__` (lines 149-172): sign is the product of the operand head-signs;
schoolbook multiplication of the absolute digit lists into `len(a)+len(b)`
slots with carry in `self.base`; sign applied, normalized, default base. -/
def mul (x y : BigInt) : Except PyErr BigInt := do
  let dx ← digitsHead x
  let dy ← digitsHead y
  let sign : ℤ := (if dx < 0 then -1 else 1) * (if dy < 0 then -1 else 1)
  let a := x.digits.map (fun d => |d|)
  let b := y.digits.map (fun d => |d|)
  let rd := mulI x.base a b a.length (List.replicate (a.length + b.length) 0)
  pure ⟨10, normalize (rd.map (fun d => sign * d))⟩

/-- Model of `_list_compare` (lines 249-261): longer list is larger; on equal lengths,
lexicographic comparison of the zipped digits, returning `1`, `-1` or `0`. -/
def lexCmp : List ℤ → List ℤ → ℤ
  | x :: xs, y :: ys =>
    if x > y then 1 else if x < y then -1 else lexCmp xs ys
  | _, _ => 0

/-- Model of `_list_compare` (lines 249-261). -/
def list_compare (a b : List ℤ) : ℤ :=
  if a.length > b.length then 1
  else if a.length < b.length then -1
  else lexCmp a b

/-- The borrow loop of `_list_subtract` (lines 270-281) over the reversed
digit lists: `range(max(len(a), len(b)))` with out-of-range reads as `0`;
a negative total has `10` added to it — the base is hard-coded ("Assuming
base 10 for subtraction"). -/
def subLoop : ℕ → List ℤ → List ℤ → ℤ → List ℤ
  | 0, _, _, _ => []
  | n + 1, a, b, borrow =>
    if a.headD 0 - b.headD 0 - borrow < 0 then
      (a.headD 0 - b.headD 0 - borrow + 10) :: subLoop n a.tail b.tail 1
    else (a.headD 0 - b.headD 0 - borrow) :: subLoop n a.tail b.tail 0

/-- Model of `_list_subtract` (lines 263-286): run the borrow loop on the reversed
lists, strip all trailing zeros (leading zeros of the re-reversed result), and
return `[0]` when everything was stripped. -/
def list_subtract (a b : List ℤ) : List ℤ :=
  let r := subLoop (max a.length b.length) a.reverse b.reverse 0
  let r := r.reverse.dropWhile (fun d => d = 0)
  if r = [] then [0] else r

/-- The `while _list_compare(remainder, divisor) >= 0` loop of division
(lines 197-199 / 224-225), counting subtractions; `none` on fuel exhaustion
(the Python loop has no termination guarantee for digits that are not valid
base-10 digits). -/
def divSubLoop (divisor : List ℤ) : ℕ → List ℤ → ℕ → Option (List ℤ × ℕ)
  | 0, rem, count =>
    if 0 ≤ list_compare rem divisor then none else some (rem, count)
  | fuel + 1, rem, count =>
    if 0 ≤ list_compare rem divisor then
      divSubLoop divisor fuel (list_subtract rem divisor) (count + 1)
    else some (rem, count)

/-- The per-digit long-division loop (lines 191-200 / 219-225): append the
next dividend digit to the remainder, strip leading zeros, subtract the
divisor while possible; collects the per-digit counts (the quotient digits)
and the final remainder. -/
def divLoop (divisor : List ℤ) (fuel : ℕ) :
    List ℤ → List ℤ → Option (List ℤ × List ℤ)
  | [], rem => some ([], rem)
  | d :: ds, rem =>
    match divSubLoop divisor fuel (normalize (rem ++ [d])) 0 with
    | none => none
    | some (rem', count) =>
      match divLoop divisor fuel ds rem' with
      | none => none
      | some (q, remF) => some ((count : ℤ) :: q, remF)

/-- Fuel for each inner division loop; any terminating Python run the
development reasons about subtracts at most 9 times per digit. -/
def divFuel : ℕ := 1000

/-- Model of `__floordiv__` (lines 174-205): `ZeroDivisionError` when `other.to_int()`
is `0`; sign is the product of the head-signs; long division of the absolute
digit lists; sign applied, normalized, default base. -/
def floordiv (x y : BigInt) : Except PyErr BigInt := do
  let vy ← to_int y
  if vy = 0 then .error .divisionByZero
  else do
    let dx ← digitsHead x
    let dy ← digitsHead y
    let sign : ℤ := (if dx < 0 then -1 else 1) * (if dy < 0 then -1 else 1)
    let dividend := x.digits.map (fun d => |d|)
    let divisor := y.digits.map (fun d => |d|)
    match divLoop divisor divFuel dividend [] with
    | none => .error .nonTermination
    | some (q, _) => pure ⟨10, normalize (q.map (fun d => sign * d))⟩

/-- Model of `__mod__` (lines 207-230): `ZeroDivisionError` when `other.to_int()` is
`0`; sign follows the dividend's head digit; same long-division loop, keeping
only the remainder; sign applied, normalized, default base. -/
def pyMod (x y : BigInt) : Except PyErr BigInt := do
  let vy ← to_int y
  if vy = 0 then .error .divisionByZero
  else do
    let dx ← digitsHead x
    let sign : ℤ := if 0 ≤ dx then 1 else -1
    let dividend := x.digits.map (fun d => |d|)
    let divisor := y.digits.map (fun d => |d|)
    match divLoop divisor divFuel dividend [] with
    | none => .error .nonTermination
    | some (_, rem) => pure ⟨10, normalize (rem.map (fun d => sign * d))⟩

/-- The `while current.to_int() <= self.to_int()` loop of `factorial`
(lines 243-245): `result *= current; current += BigInt(1)`.  The fuel is
chosen by the caller to exceed the loop bound. -/
def factLoop (bound : ℤ) : ℕ → BigInt → BigInt → Except PyErr BigInt
  | 0, _, _ => .error .nonTermination
  | fuel + 1, result, current => do
    let c ← to_int current
    if c ≤ bound then do
      let result' ← mul result current
      let current' ← add current ⟨10, [1]⟩
      factLoop bound fuel result' current'
    else pure result

/-- Model of `factorial` (lines 232-247): `ValueError` for a negative value,
`BigInt(1)` for values `≤ 1`, otherwise the iterative product loop (`BigInt(1)`
is `⟨10, [1]⟩`). -/
def factorial (x : BigInt) : Except PyErr BigInt := do
  let v ← to_int x
  if v < 0 then .error .invalidDomain
  else if v ≤ 1 then pure ⟨10, [1]⟩
  else factLoop v (v.natAbs + 2) ⟨10, [1]⟩ ⟨10, [1]⟩

/-- The spec's representation invariants (§3): at least one digit, every digit
magnitude below the base, uniform digit signs, and no leading zero-magnitude
digit except in the canonical zero `[0]`. -/
def WellFormed (x : BigInt) : Prop :=
  x.digits ≠ [] ∧
  (∀ d ∈ x.digits, d.natAbs < x.base) ∧
  ((∀ d ∈ x.digits, 0 ≤ d) ∨ (∀ d ∈ x.digits, d ≤ 0)) ∧
  (x.digits.head? ≠ some 0 ∨ x.digits = [0])

instance (x : BigInt) : Decidable (WellFormed x) := by
  unfold WellFormed; infer_instance

/-- Magnitude value of a `BigInt`: the digits' absolute values folded in the
object's own base (what `to_int` computes before applying the sign). -/
def magVal (x : BigInt) : ℕ :=
  x.digits.foldl (fun r d => r * x.base + d.natAbs) 0

/-- Sign read off the leading digit, as the operations do. -/
def headSign (x : BigInt) : ℤ :=
  if x.digits.headI < 0 then -1 else 1

/-! ### Value functions and digit-list predicates used by the verification -/

/-- Base-10 value of a most-significant-first digit list. -/
def valD (l : List ℤ) : ℤ :=
  l.foldl (fun r d => r * 10 + d) 0

/-- Base-10 value of a least-significant-first digit list. -/
def valR (l : List ℤ) : ℤ :=
  l.foldr (fun d r => d + 10 * r) 0

/-- All entries are valid non-negative base-10 digits. -/
def ValidD (l : List ℤ) : Prop :=
  ∀ d ∈ l, 0 ≤ d ∧ d < 10

/-- Non-empty with no leading zero except as a singleton. -/
def NormD : List ℤ → Prop
  | [] => False
  | [_] => True
  | d :: _ :: _ => d ≠ 0

theorem foldl_val_init (l : List ℤ) : ∀ r : ℤ,
    l.foldl (fun r d => r * 10 + d) r = r * 10 ^ l.length + valD l := by
  induction l with
  | nil => intro r; simp [valD]
  | cons d t ih =>
    intro r
    simp only [valD, List.foldl_cons, List.length_cons, zero_mul, zero_add]
    rw [ih (r * 10 + d), ih d]
    ring

theorem valD_cons (d : ℤ) (t : List ℤ) : valD (d :: t) = d * 10 ^ t.length + valD t := by
  have h := foldl_val_init t d
  simp only [valD, List.foldl_cons, zero_mul, zero_add] at h ⊢
  rw [h]

theorem valD_append_single (l : List ℤ) (d : ℤ) : valD (l ++ [d]) = 10 * valD l + d := by
  simp only [valD, List.foldl_append, List.foldl_cons, List.foldl_nil]
  ring

theorem validD_cons_head {d : ℤ} {t : List ℤ} (h : ValidD (d :: t)) : 0 ≤ d ∧ d < 10 :=
  h d (by simp)

theorem validD_cons_tail {d : ℤ} {t : List ℤ} (h : ValidD (d :: t)) : ValidD t :=
  fun e he => h e (by simp [he])

theorem valD_nonneg {l : List ℤ} (h : ValidD l) : 0 ≤ valD l := by
  induction l with
  | nil => simp [valD]
  | cons d t ih =>
    rw [valD_cons]
    have hd := validD_cons_head h
    have h1 := ih (validD_cons_tail h)
    have h2 : (0:ℤ) ≤ d * 10 ^ t.length := mul_nonneg hd.1 (by positivity)
    linarith

theorem valD_lt_pow {l : List ℤ} (h : ValidD l) : valD l < 10 ^ l.length := by
  induction l with
  | nil => simp [valD]
  | cons d t ih =>
    rw [valD_cons]
    have hd := validD_cons_head h
    have h1 := ih (validD_cons_tail h)
    have hp : (0:ℤ) < 10 ^ t.length := by positivity
    have h2 : d * 10 ^ t.length ≤ 9 * 10 ^ t.length := by nlinarith [hd.2]
    calc d * 10 ^ t.length + valD t < d * 10 ^ t.length + 10 ^ t.length := by linarith
    _ ≤ 9 * 10 ^ t.length + 10 ^ t.length := by linarith
    _ = 10 ^ (t.length + 1) := by ring
    _ = 10 ^ (d :: t).length := by simp

theorem valD_ge_pow {d : ℤ} {t : List ℤ} (hd : 1 ≤ d) (ht : ValidD t) :
    10 ^ t.length ≤ valD (d :: t) := by
  rw [valD_cons]
  have hp : (0:ℤ) < 10 ^ t.length := by positivity
  have h1 : (10:ℤ) ^ t.length ≤ d * 10 ^ t.length := by nlinarith
  have h2 := valD_nonneg ht
  linarith

theorem valR_cons (d : ℤ) (t : List ℤ) : valR (d :: t) = d + 10 * valR t := by
  simp [valR]

theorem valD_reverse (l : List ℤ) : valD l.reverse = valR l := by
  induction l with
  | nil => simp [valD, valR]
  | cons d t ih =>
    simp only [List.reverse_cons, valD_append_single, ih, valR_cons]
    ring

theorem valR_reverse (l : List ℤ) : valR l.reverse = valD l := by
  have h := valD_reverse l.reverse
  rw [List.reverse_reverse] at h
  exact h.symm

theorem valR_headD_tail (l : List ℤ) : valR l = l.headD 0 + 10 * valR l.tail := by
  cases l with
  | nil => simp [valR]
  | cons d t => simp [valR_cons]

theorem validD_headD {l : List ℤ} (h : ValidD l) : 0 ≤ l.headD 0 ∧ l.headD 0 < 10 := by
  cases l with
  | nil => simp
  | cons d t => exact h d (by simp)

theorem validD_tail {l : List ℤ} (h : ValidD l) : ValidD l.tail := by
  cases l with
  | nil => exact fun e he => absurd he (by simp)
  | cons d t =>
    simp only [List.tail_cons]
    exact validD_cons_tail h

theorem validD_reverse {l : List ℤ} (h : ValidD l) : ValidD l.reverse :=
  fun d hd => h d (List.mem_reverse.mp hd)

theorem valR_lt_pow {l : List ℤ} (h : ValidD l) : valR l < 10 ^ l.length := by
  rw [← valD_reverse]
  have h1 : valD l.reverse < 10 ^ l.reverse.length := valD_lt_pow (validD_reverse h)
  simpa using h1

theorem valR_nonneg {l : List ℤ} (h : ValidD l) : 0 ≤ valR l := by
  rw [← valD_reverse]
  exact valD_nonneg (validD_reverse h)

theorem normalize_valD (l : List ℤ) : valD (normalize l) = valD l := by
  induction l with
  | nil => rfl
  | cons d t ih =>
    cases t with
    | nil => rfl
    | cons e s =>
      by_cases hd : d = 0
      · rw [show normalize (d :: e :: s) = normalize (e :: s) by simp [normalize, hd],
            ih, hd, valD_cons 0 (e :: s)]
        ring
      · rw [show normalize (d :: e :: s) = d :: e :: s by simp [normalize, hd]]

theorem normalize_ne_nil {l : List ℤ} (h : l ≠ []) : normalize l ≠ [] := by
  induction l with
  | nil => simp at h
  | cons d t ih =>
    cases t with
    | nil => simp [normalize]
    | cons e s =>
      by_cases hd : d = 0
      · rw [show normalize (d :: e :: s) = normalize (e :: s) by simp [normalize, hd]]
        exact ih (by simp)
      · rw [show normalize (d :: e :: s) = d :: e :: s by simp [normalize, hd]]
        simp

theorem normalize_normD {l : List ℤ} (h : l ≠ []) : NormD (normalize l) := by
  induction l with
  | nil => simp at h
  | cons d t ih =>
    cases t with
    | nil => simp [normalize, NormD]
    | cons e s =>
      by_cases hd : d = 0
      · rw [show normalize (d :: e :: s) = normalize (e :: s) by simp [normalize, hd]]
        exact ih (by simp)
      · rw [show normalize (d :: e :: s) = d :: e :: s by simp [normalize, hd]]
        exact hd

theorem mem_normalize {l : List ℤ} {a : ℤ} (h : a ∈ normalize l) : a ∈ l := by
  induction l with
  | nil => simpa [normalize] using h
  | cons d t ih =>
    cases t with
    | nil => simpa [normalize] using h
    | cons e s =>
      by_cases hd : d = 0
      · rw [show normalize (d :: e :: s) = normalize (e :: s) by simp [normalize, hd]] at h
        exact List.mem_cons_of_mem d (ih h)
      · rwa [show normalize (d :: e :: s) = d :: e :: s by simp [normalize, hd]] at h

theorem normD_head_cases {l : List ℤ} (h : NormD l) : l.head? ≠ some 0 ∨ l = [0] := by
  cases l with
  | nil => exact absurd h (by simp [NormD])
  | cons d t =>
    cases t with
    | nil =>
      by_cases hd : d = 0
      · exact Or.inr (by rw [hd])
      · exact Or.inl (by simpa using hd)
    | cons e s =>
      exact Or.inl (by simpa using h)

theorem normD_ne_nil {l : List ℤ} (h : NormD l) : l ≠ [] := by
  cases l with
  | nil => exact absurd h (by simp [NormD])
  | cons d t => simp

theorem normalize_map_mul (s : ℤ) (hs : s ≠ 0) (l : List ℤ) :
    normalize (l.map (fun d => s * d)) = (normalize l).map (fun d => s * d) := by
  induction l with
  | nil => rfl
  | cons d t ih =>
    cases t with
    | nil => rfl
    | cons e r =>
      by_cases hd : d = 0
      · have h1 : s * d = 0 := by rw [hd]; ring
        simp only [List.map_cons]
        rw [show normalize (s * d :: s * e :: List.map (fun d => s * d) r)
              = normalize (s * e :: List.map (fun d => s * d) r) by simp [normalize, h1],
            show normalize (d :: e :: r) = normalize (e :: r) by simp [normalize, hd]]
        simpa using ih
      · have h1 : s * d ≠ 0 := mul_ne_zero hs hd
        simp only [List.map_cons]
        rw [show normalize (s * d :: s * e :: List.map (fun d => s * d) r)
              = s * d :: s * e :: List.map (fun d => s * d) r by simp [normalize, h1],
            show normalize (d :: e :: r) = d :: e :: r by simp [normalize, hd]]
        simp

/-! ### `_list_compare` correctness over valid base-10 digit lists -/

theorem lexCmp_spec : ∀ a b : List ℤ, a.length = b.length → ValidD a → ValidD b →
    (lexCmp a b = 0 ∧ a = b) ∨ (lexCmp a b = 1 ∧ valD b < valD a) ∨
    (lexCmp a b = -1 ∧ valD a < valD b) := by
  intro a
  induction a with
  | nil =>
    intro b hlen _ _
    have hb' : b = [] := by
      cases b with
      | nil => rfl
      | cons e s => simp at hlen
    subst hb'
    exact Or.inl ⟨rfl, rfl⟩
  | cons x xs ih =>
    intro b hlen ha hb
    cases b with
    | nil => simp at hlen
    | cons y ys =>
      have hxy := validD_cons_head ha
      have hy := validD_cons_head hb
      have hxs := validD_cons_tail ha
      have hys := validD_cons_tail hb
      have hlen' : xs.length = ys.length := by simpa using hlen
      have hp : (0:ℤ) < 10 ^ ys.length := by positivity
      by_cases hgt : x > y
      · refine Or.inr (Or.inl ⟨by simp [lexCmp, hgt], ?_⟩)
        rw [valD_cons, valD_cons, hlen']
        have h1 : valD ys < 10 ^ ys.length := valD_lt_pow hys
        have h2 : 0 ≤ valD xs := valD_nonneg hxs
        have h3 : (y + 1) * 10 ^ ys.length ≤ x * 10 ^ ys.length :=
          mul_le_mul_of_nonneg_right (by omega) (by positivity)
        linarith
      · by_cases hlt : x < y
        · refine Or.inr (Or.inr ⟨by simp [lexCmp, hgt, hlt], ?_⟩)
          rw [valD_cons, valD_cons, hlen']
          have h1 : valD xs < 10 ^ xs.length := valD_lt_pow hxs
          rw [hlen'] at h1
          have h2 : 0 ≤ valD ys := valD_nonneg hys
          have h3 : (x + 1) * 10 ^ ys.length ≤ y * 10 ^ ys.length :=
            mul_le_mul_of_nonneg_right (by omega) (by positivity)
          linarith
        · have hxy' : x = y := by omega
          have hstep : lexCmp (x :: xs) (y :: ys) = lexCmp xs ys := by
            simp [lexCmp, hgt, hlt]
          rcases ih ys hlen' hxs hys with ⟨h0, he⟩ | ⟨h1, hv⟩ | ⟨h1, hv⟩
          · exact Or.inl ⟨by rw [hstep, h0], by rw [hxy', he]⟩
          · refine Or.inr (Or.inl ⟨by rw [hstep, h1], ?_⟩)
            rw [valD_cons, valD_cons, hlen', hxy']
            linarith
          · refine Or.inr (Or.inr ⟨by rw [hstep, h1], ?_⟩)
            rw [valD_cons, valD_cons, hlen', hxy']
            linarith

theorem valD_lt_of_length_lt {a b : List ℤ} (ha : ValidD a) (na : NormD a)
    (hb : ValidD b) (nb : b ≠ []) (hlen : b.length < a.length) : valD b < valD a := by
  cases a with
  | nil => simp at hlen
  | cons d t =>
    have hbpos : 1 ≤ b.length := List.length_pos.mpr nb
    have hdt : 1 ≤ d := by
      cases t with
      | nil =>
        exfalso
        have h0 : b.length < 1 := by simpa using hlen
        omega
      | cons e s =>
        have hne : d ≠ 0 := na
        have hd0 := validD_cons_head ha
        omega
    have h1 : (10:ℤ) ^ t.length ≤ valD (d :: t) := valD_ge_pow hdt (validD_cons_tail ha)
    have h2 : valD b < 10 ^ b.length := valD_lt_pow hb
    have h3 : (10:ℤ) ^ b.length ≤ 10 ^ t.length := by
      apply pow_le_pow_right₀ (by norm_num)
      simp only [List.length_cons] at hlen
      omega
    linarith

theorem list_compare_spec {a b : List ℤ} (ha : ValidD a) (hb : ValidD b)
    (na : NormD a) (nb : NormD b) :
    (list_compare a b = 0 ∧ valD a = valD b) ∨
    (list_compare a b = 1 ∧ valD b < valD a) ∨
    (list_compare a b = -1 ∧ valD a < valD b) := by
  unfold list_compare
  rcases lt_trichotomy a.length b.length with hl | hl | hl
  · rw [if_neg (by omega), if_pos hl]
    exact Or.inr (Or.inr ⟨rfl, valD_lt_of_length_lt hb nb ha (normD_ne_nil na) hl⟩)
  · rw [if_neg (by omega), if_neg (by omega)]
    rcases lexCmp_spec a b hl ha hb with ⟨h0, he⟩ | ⟨h1, hv⟩ | ⟨h1, hv⟩
    · exact Or.inl ⟨h0, by rw [he]⟩
    · exact Or.inr (Or.inl ⟨h1, hv⟩)
    · exact Or.inr (Or.inr ⟨h1, hv⟩)
  · rw [if_pos hl]
    exact Or.inr (Or.inl ⟨rfl, valD_lt_of_length_lt ha na hb (normD_ne_nil nb) hl⟩)

theorem list_compare_nonneg_iff {a b : List ℤ} (ha : ValidD a) (hb : ValidD b)
    (na : NormD a) (nb : NormD b) :
    0 ≤ list_compare a b ↔ valD b ≤ valD a := by
  rcases list_compare_spec ha hb na nb with ⟨h, hv⟩ | ⟨h, hv⟩ | ⟨h, hv⟩ <;>
    rw [h] <;> constructor <;> intro <;> omega

/-! ### `_list_subtract` correctness over valid base-10 digit lists -/

theorem subLoop_spec : ∀ (n : ℕ) (a b : List ℤ) (borrow : ℤ),
    ValidD a → ValidD b → (borrow = 0 ∨ borrow = 1) →
    ∃ bo : ℤ, (bo = 0 ∨ bo = 1) ∧ ValidD (subLoop n a b borrow) ∧
      (subLoop n a b borrow).length = n ∧
      valR (subLoop n a b borrow) =
        valR (a.take n) - valR (b.take n) - borrow + bo * 10 ^ n := by
  intro n
  induction n with
  | zero =>
    intro a b borrow _ _ hbw
    refine ⟨borrow, hbw, by simp [subLoop, ValidD], by simp [subLoop], ?_⟩
    simp [subLoop, valR]
  | succ n ih =>
    intro a b borrow ha hb hbw
    have hah := validD_headD ha
    have hbh := validD_headD hb
    have hat := validD_tail ha
    have hbt := validD_tail hb
    have htake : ∀ l : List ℤ, valR (l.take (n + 1)) = l.headD 0 + 10 * valR (l.tail.take n) := by
      intro l
      cases l with
      | nil => simp [valR]
      | cons d t => simp [valR_cons]
    by_cases hneg : a.headD 0 - b.headD 0 - borrow < 0
    · have hstep : subLoop (n + 1) a b borrow =
          (a.headD 0 - b.headD 0 - borrow + 10) :: subLoop n a.tail b.tail 1 := by
        rw [subLoop, if_pos hneg]
      obtain ⟨bo, hbo, hvalid, hlen, hval⟩ := ih a.tail b.tail 1 hat hbt (Or.inr rfl)
      refine ⟨bo, hbo, ?_, ?_, ?_⟩
      · intro d hd
        rw [hstep] at hd
        rcases List.mem_cons.mp hd with h | h
        · omega
        · exact hvalid d h
      · rw [hstep]; simp [hlen]
      · rw [hstep, valR_cons, hval, htake a, htake b]
        ring
    · have hstep : subLoop (n + 1) a b borrow =
          (a.headD 0 - b.headD 0 - borrow) :: subLoop n a.tail b.tail 0 := by
        rw [subLoop, if_neg hneg]
      obtain ⟨bo, hbo, hvalid, hlen, hval⟩ := ih a.tail b.tail 0 hat hbt (Or.inl rfl)
      refine ⟨bo, hbo, ?_, ?_, ?_⟩
      · intro d hd
        rw [hstep] at hd
        rcases List.mem_cons.mp hd with h | h
        · omega
        · exact hvalid d h
      · rw [hstep]; simp [hlen]
      · rw [hstep, valR_cons, hval, htake a, htake b]
        ring

theorem valD_dropWhile_zero (l : List ℤ) :
    valD (l.dropWhile (fun d => d = 0)) = valD l := by
  induction l with
  | nil => rfl
  | cons d t ih =>
    by_cases hd : d = 0
    · rw [List.dropWhile_cons, if_pos (by simp [hd]), ih, valD_cons, hd]
      ring
    · rw [List.dropWhile_cons, if_neg (by simp [hd])]

theorem dropWhile_zero_head (l : List ℤ) :
    l.dropWhile (fun d => d = 0) = [] ∨ NormD (l.dropWhile (fun d => d = 0)) := by
  induction l with
  | nil => exact Or.inl rfl
  | cons d t ih =>
    by_cases hd : d = 0
    · rw [List.dropWhile_cons, if_pos (by simp [hd])]
      exact ih
    · rw [List.dropWhile_cons, if_neg (by simp [hd])]
      right
      cases t with
      | nil => simp [NormD]
      | cons e s => exact hd

theorem list_subtract_spec {a b : List ℤ} (ha : ValidD a) (hb : ValidD b)
    (hle : valD b ≤ valD a) :
    valD (list_subtract a b) = valD a - valD b ∧ ValidD (list_subtract a b) ∧
      NormD (list_subtract a b) := by
  have har := validD_reverse ha
  have hbr := validD_reverse hb
  have hnn : max a.length b.length = max a.reverse.length b.reverse.length := by simp
  obtain ⟨bo, hbo, hvalid, hlen, hval⟩ :=
    subLoop_spec (max a.reverse.length b.reverse.length) a.reverse b.reverse 0 har hbr
      (Or.inl rfl)
  rw [List.take_of_length_le (by omega), List.take_of_length_le (by omega),
    valR_reverse, valR_reverse] at hval
  have hbo0 : bo = 0 := by
    rcases hbo with h | h
    · exact h
    · exfalso
      have h1 :
          valR (subLoop (max a.reverse.length b.reverse.length) a.reverse b.reverse 0) <
            10 ^ max a.reverse.length b.reverse.length := by
        have h2 := valR_lt_pow hvalid
        rwa [hlen] at h2
      rw [hval, h, one_mul] at h1
      omega
  rw [hbo0, zero_mul, add_zero, sub_zero] at hval
  unfold list_subtract
  rw [hnn]
  set r := subLoop (max a.reverse.length b.reverse.length) a.reverse b.reverse 0 with hr
  set r2 := r.reverse.dropWhile (fun d => d = 0) with hr2
  have hval2 : valD r2 = valD a - valD b := by
    rw [hr2, valD_dropWhile_zero, valD_reverse, hval]
  have hvalid2 : ValidD r2 := by
    intro d hd
    have h1 : d ∈ r.reverse := (List.dropWhile_sublist _).mem hd
    exact hvalid d (List.mem_reverse.mp h1)
  by_cases hnil : r2 = []
  · rw [if_pos hnil]
    have hz : valD a - valD b = 0 := by
      rw [← hval2, hnil]; rfl
    refine ⟨by rw [← hval2, hnil]; simp [valD], ?_, by simp [NormD]⟩
    intro d hd
    simp only [List.mem_singleton] at hd
    omega
  · rw [if_neg hnil]
    refine ⟨hval2, hvalid2, ?_⟩
    rcases dropWhile_zero_head r.reverse with h | h
    · exact absurd h hnil
    · exact h

/-! ### The long-division loops -/

theorem divSubLoop_spec {D : List ℤ} (hD : ValidD D) (nD : NormD D) :
    ∀ (fuel : ℕ) (R : List ℤ) (count : ℕ), ValidD R → NormD R →
      valD R < valD D * ((fuel : ℤ) + 1) →
      ∃ (k : ℕ) (R' : List ℤ), divSubLoop D fuel R count = some (R', count + k) ∧
        ValidD R' ∧ NormD R' ∧ valD D * (k : ℤ) + valD R' = valD R ∧ valD R' < valD D := by
  intro fuel
  induction fuel with
  | zero =>
    intro R count hR nR hbound
    have hlt : valD R < valD D := by
      push_cast at hbound
      linarith
    have hcmp : ¬ 0 ≤ list_compare R D := by
      rw [list_compare_nonneg_iff hR hD nR nD]
      omega
    refine ⟨0, R, ?_, hR, nR, by push_cast; ring, hlt⟩
    rw [divSubLoop, if_neg hcmp, Nat.add_zero]
  | succ fuel ih =>
    intro R count hR nR hbound
    by_cases hc : 0 ≤ list_compare R D
    · have hle : valD D ≤ valD R := (list_compare_nonneg_iff hR hD nR nD).mp hc
      obtain ⟨hsv, hsval, hsnorm⟩ := list_subtract_spec hR hD hle
      have hbound' : valD (list_subtract R D) < valD D * ((fuel : ℤ) + 1) := by
        rw [hsv]
        push_cast at hbound
        linarith
      obtain ⟨k, R', heq, h1, h2, h3, h4⟩ :=
        ih (list_subtract R D) (count + 1) hsval hsnorm hbound'
      refine ⟨k + 1, R', ?_, h1, h2, ?_, h4⟩
      · have hn : count + 1 + k = count + (k + 1) := by omega
        rw [divSubLoop, if_pos hc, heq, hn]
      · rw [hsv] at h3
        push_cast
        linarith
    · have hlt : valD R < valD D := by
        rw [list_compare_nonneg_iff hR hD nR nD] at hc
        omega
      refine ⟨0, R, ?_, hR, nR, by push_cast; ring, hlt⟩
      rw [divSubLoop, if_neg hc, Nat.add_zero]

theorem divLoop_spec {D : List ℤ} (hD : ValidD D) (nD : NormD D) (hpos : 0 < valD D) :
    ∀ (ds R : List ℤ), ValidD ds → ValidD R → valD R < valD D →
      ∃ (q R' : List ℤ), divLoop D divFuel ds R = some (q, R') ∧
        ValidD q ∧ q.length = ds.length ∧ ValidD R' ∧
        (NormD R' ∨ (ds = [] ∧ R' = R)) ∧ valD R' < valD D ∧
        valD D * valD q + valD R' = valD R * 10 ^ ds.length + valD ds := by
  intro ds
  induction ds with
  | nil =>
    intro R hds hR hRD
    refine ⟨[], R, rfl, by intro d hd; simp at hd, rfl, hR, Or.inr ⟨rfl, rfl⟩, hRD, ?_⟩
    show valD D * valD ([] : List ℤ) + valD R = valD R * 10 ^ 0 + valD ([] : List ℤ)
    have hv0 : valD ([] : List ℤ) = 0 := rfl
    rw [hv0]
    ring
  | cons d ds ih =>
    intro R hds hR hRD
    have hd0 : 0 ≤ d ∧ d < 10 := hds d (by simp)
    have hds' : ValidD ds := validD_cons_tail hds
    have hRd : ValidD (R ++ [d]) := by
      intro e he
      rcases List.mem_append.mp he with h | h
      · exact hR e h
      · simp only [List.mem_singleton] at h
        omega
    have hR1valid : ValidD (normalize (R ++ [d])) := fun e he => hRd e (mem_normalize he)
    have hR1norm : NormD (normalize (R ++ [d])) := normalize_normD (by simp)
    have hR1val : valD (normalize (R ++ [d])) = 10 * valD R + d := by
      rw [normalize_valD, valD_append_single]
    have hR1lt : valD (normalize (R ++ [d])) < 10 * valD D := by
      rw [hR1val]
      linarith [hd0.2, hRD]
    have hR1bound : valD (normalize (R ++ [d])) < valD D * ((divFuel : ℤ) + 1) := by
      have h1 : (10:ℤ) * valD D ≤ valD D * ((divFuel : ℤ) + 1) := by
        show (10:ℤ) * valD D ≤ valD D * ((1000 : ℕ) + 1)
        push_cast
        linarith
      linarith
    obtain ⟨k, R2, hloop, hR2v, hR2n, hkeq, hR2lt⟩ :=
      divSubLoop_spec hD nD divFuel (normalize (R ++ [d])) 0 hR1valid hR1norm hR1bound
    have hk10 : (k : ℤ) < 10 := by
      have hvr2 := valD_nonneg hR2v
      have h1 : valD D * (k : ℤ) < valD D * 10 := by
        have h2 : valD D * (k : ℤ) + valD R2 = valD (normalize (R ++ [d])) := hkeq
        linarith [hR1lt]
      exact lt_of_mul_lt_mul_left h1 (le_of_lt hpos)
    obtain ⟨q, R', hloop2, hqv, hqlen, hR'v, hR'n, hR'lt, heq⟩ :=
      ih R2 hds' hR2v hR2lt
    refine ⟨(k : ℤ) :: q, R', ?_, ?_, by simp [hqlen], hR'v, ?_, hR'lt, ?_⟩
    · rw [divLoop, hloop]
      simp only [Nat.zero_add]
      rw [hloop2]
    · intro e he
      rcases List.mem_cons.mp he with h | h
      · subst h
        exact ⟨by positivity, hk10⟩
      · exact hqv e h
    · left
      rcases hR'n with h | ⟨hds0, hR'R⟩
      · exact h
      · rw [hR'R]
        exact hR2n
    · rw [valD_cons, hqlen, valD_cons, List.length_cons, pow_succ]
      linear_combination (10:ℤ) ^ ds.length * hkeq + heq + (10:ℤ) ^ ds.length * hR1val

/-! ### Reading results back through `to_int` -/

theorem foldl_magVal_cast (B : ℕ) : ∀ (l : List ℤ) (r : ℕ),
    ((l.foldl (fun r d => r * B + d.natAbs) r : ℕ) : ℤ) =
      l.foldl (fun r d => r * (B : ℤ) + (d.natAbs : ℤ)) (r : ℤ) := by
  intro l
  induction l with
  | nil => intro r; rfl
  | cons d t ih =>
    intro r
    simp only [List.foldl_cons]
    rw [ih (r * B + d.natAbs)]
    push_cast
    ring_nf

theorem magVal_cast (x : BigInt) (hbx : x.base = 10) :
    (magVal x : ℤ) = valD (x.digits.map (fun d => |d|)) := by
  unfold magVal valD
  rw [hbx, List.foldl_map, foldl_magVal_cast 10 x.digits 0]
  simp only [Int.abs_eq_natAbs]
  norm_num

theorem to_int_eq_headSign (x : BigInt) (h : x.digits ≠ []) :
    to_int x = .ok ((magVal x : ℤ) * headSign x) := by
  unfold to_int magVal headSign
  cases hd : x.digits with
  | nil => exact absurd hd h
  | cons d t =>
    simp only [hd]
    rw [show ((d :: t).foldl (fun r e => r * (x.base : ℕ) + e.natAbs) 0 : ℕ) =
        (x.digits.foldl (fun r e => r * (x.base : ℕ) + e.natAbs) 0 : ℕ) by rw [hd]]
    rw [foldl_magVal_cast x.base x.digits 0]
    rw [hd]
    simp only [List.headI]
    by_cases h0 : 0 ≤ d
    · rw [if_pos h0, if_neg (by omega)]
      push_cast
      rfl
    · rw [if_neg h0, if_pos (by omega)]
      push_cast
      rfl

theorem valid_foldl_natAbs : ∀ (l : List ℤ), ValidD l → ∀ r : ℤ,
    l.foldl (fun r d => r * 10 + (d.natAbs : ℤ)) r = l.foldl (fun r d => r * 10 + d) r := by
  intro l
  induction l with
  | nil => intro _ r; rfl
  | cons d t ih =>
    intro hv r
    simp only [List.foldl_cons]
    rw [Int.natAbs_of_nonneg (validD_cons_head hv).1]
    exact ih (validD_cons_tail hv) (r * 10 + d)

theorem normD_head_zero {l : List ℤ} (h : NormD l) {t : List ℤ} (he : l = 0 :: t) :
    l = [0] := by
  cases l with
  | nil => exact absurd h (by simp [NormD])
  | cons d s =>
    cases s with
    | nil =>
      have : d = 0 := by
        have := List.head_eq_of_cons_eq he
        omega
      rw [this]
    | cons e r =>
      exfalso
      have hd : d ≠ 0 := h
      have := List.head_eq_of_cons_eq he
      omega

theorem to_int_mk_signed (q : List ℤ) (s : ℤ) (hq : ValidD q) (hne : q ≠ [])
    (hs : s = 1 ∨ s = -1) :
    to_int ⟨10, normalize (q.map (fun d => s * d))⟩ = .ok (s * valD q) := by
  have hs0 : s ≠ 0 := by rcases hs with h | h <;> omega
  have hcomm := normalize_map_mul s hs0 q
  have hq1v : ValidD (normalize q) := fun e he => hq e (mem_normalize he)
  have hq1n : NormD (normalize q) := normalize_normD hne
  have hq1val : valD (normalize q) = valD q := normalize_valD q
  unfold to_int
  simp only [hcomm]
  cases hq1 : normalize q with
  | nil => exact absurd hq1 (normalize_ne_nil hne)
  | cons e t =>
    rw [hq1] at hq1v hq1n hq1val
    have he0 : 0 ≤ e ∧ e < 10 := validD_cons_head hq1v
    simp only [List.map_cons]
    have hfold : ((s * e :: (t.map (fun d => s * d))).foldl
        (fun r d => r * ((10 : ℕ) : ℤ) + (d.natAbs : ℤ)) 0) = valD (e :: t) := by
      rw [show ((s * e) :: (t.map (fun d => s * d))) = (e :: t).map (fun d => s * d) by simp]
      rw [List.foldl_map]
      have hfun : (fun (r : ℤ) (d : ℤ) => r * ((10 : ℕ) : ℤ) + ((s * d).natAbs : ℤ))
          = fun (r : ℤ) (d : ℤ) => r * 10 + (d.natAbs : ℤ) := by
        funext r d
        rcases hs with h | h <;> subst h <;> simp
      rw [hfun]
      exact valid_foldl_natAbs (e :: t) hq1v 0
    rw [hfold]
    rcases hs with h | h
    · subst h
      rw [if_pos (by omega : (0:ℤ) ≤ 1 * e)]
      rw [← hq1val]
      ring_nf
    · subst h
      by_cases he : e = 0
      · have h10 : e :: t = [0] := normD_head_zero hq1n (by rw [he])
        have hv0 : valD (e :: t) = 0 := by rw [h10]; rfl
        rw [hv0, ← hq1val, hv0]
        simp
      · rw [if_neg (by omega : ¬ (0:ℤ) ≤ -1 * e)]
        rw [← hq1val]
        ring_nf

theorem wf_mk_signed (q : List ℤ) (s : ℤ) (hq : ValidD q) (hne : q ≠ [])
    (hs : s = 1 ∨ s = -1) :
    WellFormed ⟨10, normalize (q.map (fun d => s * d))⟩ := by
  have hs0 : s ≠ 0 := by rcases hs with h | h <;> omega
  have hcomm := normalize_map_mul s hs0 q
  have hq1v : ValidD (normalize q) := fun e he => hq e (mem_normalize he)
  have hq1n : NormD (normalize q) := normalize_normD hne
  refine ⟨?_, ?_, ?_, ?_⟩
  · show normalize (q.map (fun d => s * d)) ≠ []
    exact normalize_ne_nil (by simpa using hne)
  · show ∀ d ∈ normalize (q.map (fun d => s * d)), d.natAbs < 10
    rw [hcomm]
    intro d hd
    obtain ⟨e, he, rfl⟩ := List.mem_map.mp hd
    have hv := hq1v e he
    rcases hs with h | h <;> subst h <;> simp <;> omega
  · show (∀ d ∈ normalize (q.map (fun d => s * d)), 0 ≤ d) ∨
      (∀ d ∈ normalize (q.map (fun d => s * d)), d ≤ 0)
    rw [hcomm]
    rcases hs with h | h
    · subst h
      left
      intro d hd
      obtain ⟨e, he, rfl⟩ := List.mem_map.mp hd
      have hv := hq1v e he
      omega
    · subst h
      right
      intro d hd
      obtain ⟨e, he, rfl⟩ := List.mem_map.mp hd
      have hv := hq1v e he
      omega
  · show (normalize (q.map (fun d => s * d))).head? ≠ some 0 ∨
      normalize (q.map (fun d => s * d)) = [0]
    rw [hcomm]
    cases hq1 : normalize q with
    | nil => exact absurd hq1 (normalize_ne_nil hne)
    | cons e t =>
      rw [hq1] at hq1n
      by_cases he : e = 0
      · right
        have h10 : e :: t = [0] := normD_head_zero hq1n (by rw [he])
        rw [h10]
        simp
      · left
        simp only [List.map_cons, List.head?_cons]
        intro hcon
        have : s * e = 0 := by injection hcon
        rcases mul_eq_zero.mp this with h | h
        · exact hs0 h
        · exact he h

/-! ### Division and modulo: assembled correctness over well-formed base-10 inputs -/

theorem okBind {α β : Type} (a : α) (f : α → Except PyErr β) :
    (Except.ok a >>= f) = f a := rfl

theorem wf_abs_validD {x : BigInt} (hx : WellFormed x) (hbx : x.base = 10) :
    ValidD (x.digits.map (fun d => |d|)) := by
  intro d hd
  obtain ⟨e, he, rfl⟩ := List.mem_map.mp hd
  have h1 := hx.2.1 e he
  rw [hbx] at h1
  refine ⟨abs_nonneg e, ?_⟩
  rw [Int.abs_eq_natAbs]
  exact_mod_cast h1

theorem wf_abs_normD {y : BigInt} (hy : WellFormed y) :
    NormD (y.digits.map (fun d => |d|)) := by
  obtain ⟨hne, _, _, hhead⟩ := hy
  cases hd : y.digits with
  | nil => exact absurd hd hne
  | cons d t =>
    cases t with
    | nil => simp [NormD]
    | cons e s =>
      have hd0 : d ≠ 0 := by
        rcases hhead with h | h
        · rw [hd] at h
          simpa using h
        · rw [hd] at h
          simp at h
      simp only [List.map_cons]
      show |d| ≠ 0
      simpa using hd0

theorem headSign_cases (x : BigInt) : headSign x = 1 ∨ headSign x = -1 := by
  unfold headSign
  by_cases h : x.digits.headI < 0
  · right
    rw [if_pos h]
  · left
    rw [if_neg h]

theorem floordiv_ok (x y : BigInt) (hx : WellFormed x) (hy : WellFormed y)
    (hbx : x.base = 10) (hby : y.base = 10) (hnz : magVal y ≠ 0) :
    ∃ r : BigInt, floordiv x y = .ok r ∧ WellFormed r ∧ r.base = 10 ∧
      to_int r = .ok ((headSign x * headSign y) * ((magVal x / magVal y : ℕ) : ℤ)) := by
  have hmy : (magVal y : ℤ) ≠ 0 := by exact_mod_cast hnz
  have hto := to_int_eq_headSign y hy.1
  have hvy0 : (magVal y : ℤ) * headSign y ≠ 0 := by
    rcases headSign_cases y with h | h <;> rw [h] <;> omega
  cases hdx : x.digits with
  | nil => exact absurd hdx hx.1
  | cons dx tx =>
  cases hdy : y.digits with
  | nil => exact absurd hdy hy.1
  | cons dy ty =>
  have hdxh : digitsHead x = .ok dx := by unfold digitsHead; rw [hdx]
  have hdyh : digitsHead y = .ok dy := by unfold digitsHead; rw [hdy]
  have hDv : ValidD (y.digits.map (fun d => |d|)) := wf_abs_validD hy hby
  have hDn : NormD (y.digits.map (fun d => |d|)) := wf_abs_normD hy
  have hDval : (magVal y : ℤ) = valD (y.digits.map (fun d => |d|)) := magVal_cast y hby
  have hDpos : 0 < valD (y.digits.map (fun d => |d|)) := by
    rw [← hDval]
    exact_mod_cast Nat.pos_of_ne_zero hnz
  have hdv : ValidD (x.digits.map (fun d => |d|)) := wf_abs_validD hx hbx
  have hxval : (magVal x : ℤ) = valD (x.digits.map (fun d => |d|)) := magVal_cast x hbx
  obtain ⟨q, R', hloop, hqv, hqlen, hR'v, hR'n, hR'lt, heq⟩ :=
    divLoop_spec hDv hDn hDpos (x.digits.map (fun d => |d|)) [] hdv
      (by intro d hd; simp at hd) (by show valD [] < _; rw [show valD [] = 0 from rfl]; exact hDpos)
  have hqne : q ≠ [] := by
    intro hq0
    rw [hq0] at hqlen
    have : x.digits.length = 0 := by simpa using hqlen.symm
    exact hx.1 (List.eq_nil_of_length_eq_zero this)
  have hs : ((if dx < 0 then -1 else 1) * (if dy < 0 then -1 else 1) : ℤ) = 1 ∨
      ((if dx < 0 then -1 else 1) * (if dy < 0 then -1 else 1) : ℤ) = -1 := by
    by_cases h1 : dx < 0 <;> by_cases h2 : dy < 0 <;> simp [h1, h2]
  have hres : floordiv x y =
      .ok ⟨10, normalize (q.map (fun d =>
        ((if dx < 0 then -1 else 1) * (if dy < 0 then -1 else 1)) * d))⟩ := by
    unfold floordiv
    rw [hto]
    simp only [okBind]
    rw [if_neg hvy0]
    rw [hdxh]
    simp only [okBind]
    rw [hdyh]
    simp only [okBind]
    rw [hloop]
    rfl
  refine ⟨_, hres, wf_mk_signed q _ hqv hqne hs, rfl, ?_⟩
  rw [to_int_mk_signed q _ hqv hqne hs]
  have hsign : ((if dx < 0 then -1 else 1) * (if dy < 0 then -1 else 1) : ℤ) =
      headSign x * headSign y := by
    unfold headSign
    rw [hdx, hdy]
    simp only [List.headI]
  have hq_val : valD q = ((magVal x / magVal y : ℕ) : ℤ) := by
    have h0 : valD ([] : List ℤ) = 0 := rfl
    rw [h0] at heq
    have heq2 : valD (y.digits.map (fun d => |d|)) * valD q + valD R' =
        valD (x.digits.map (fun d => |d|)) := by
      rw [heq]
      ring
    have hq0 : 0 ≤ valD q := valD_nonneg hqv
    have hR0 : 0 ≤ valD R' := valD_nonneg hR'v
    have hnat : magVal y * (valD q).toNat + (valD R').toNat = magVal x := by
      have h1 : ((magVal y * (valD q).toNat + (valD R').toNat : ℕ) : ℤ) = ((magVal x : ℕ) : ℤ) := by
        push_cast
        rw [Int.toNat_of_nonneg hq0, Int.toNat_of_nonneg hR0, hxval, hDval]
        exact heq2
      exact_mod_cast h1
    have hRlt : (valD R').toNat < magVal y := by
      have h1 : valD R' < (magVal y : ℤ) := by rw [hDval]; exact hR'lt
      omega
    have hdiv : magVal x / magVal y = (valD q).toNat := by
      rw [← hnat, Nat.mul_add_div (Nat.pos_of_ne_zero hnz), Nat.div_eq_of_lt hRlt,
        Nat.add_zero]
    rw [hdiv]
    exact (Int.toNat_of_nonneg hq0).symm
  rw [hq_val, hsign]

theorem pyMod_ok (x y : BigInt) (hx : WellFormed x) (hy : WellFormed y)
    (hbx : x.base = 10) (hby : y.base = 10) (hnz : magVal y ≠ 0) :
    ∃ r : BigInt, pyMod x y = .ok r ∧ WellFormed r ∧ r.base = 10 ∧
      to_int r = .ok (headSign x * ((magVal x % magVal y : ℕ) : ℤ)) := by
  have hmy : (magVal y : ℤ) ≠ 0 := by exact_mod_cast hnz
  have hto := to_int_eq_headSign y hy.1
  have hvy0 : (magVal y : ℤ) * headSign y ≠ 0 := by
    rcases headSign_cases y with h | h <;> rw [h] <;> omega
  cases hdx : x.digits with
  | nil => exact absurd hdx hx.1
  | cons dx tx =>
  have hdxh : digitsHead x = .ok dx := by unfold digitsHead; rw [hdx]
  have hDv : ValidD (y.digits.map (fun d => |d|)) := wf_abs_validD hy hby
  have hDn : NormD (y.digits.map (fun d => |d|)) := wf_abs_normD hy
  have hDval : (magVal y : ℤ) = valD (y.digits.map (fun d => |d|)) := magVal_cast y hby
  have hDpos : 0 < valD (y.digits.map (fun d => |d|)) := by
    rw [← hDval]
    exact_mod_cast Nat.pos_of_ne_zero hnz
  have hdv : ValidD (x.digits.map (fun d => |d|)) := wf_abs_validD hx hbx
  have hxval : (magVal x : ℤ) = valD (x.digits.map (fun d => |d|)) := magVal_cast x hbx
  obtain ⟨q, R', hloop, hqv, hqlen, hR'v, hR'n, hR'lt, heq⟩ :=
    divLoop_spec hDv hDn hDpos (x.digits.map (fun d => |d|)) [] hdv
      (by intro d hd; simp at hd) (by show valD [] < _; rw [show valD [] = 0 from rfl]; exact hDpos)
  have hR'ne : R' ≠ [] := by
    rcases hR'n with h | ⟨h1, h2⟩
    · exact normD_ne_nil h
    · exfalso
      have : x.digits.length = 0 := by
        have := congrArg List.length h1
        simpa using this
      exact hx.1 (List.eq_nil_of_length_eq_zero this)
  have hs : ((if 0 ≤ dx then 1 else -1) : ℤ) = 1 ∨ ((if 0 ≤ dx then 1 else -1) : ℤ) = -1 := by
    by_cases h1 : 0 ≤ dx <;> simp [h1]
  have hres : pyMod x y =
      .ok ⟨10, normalize (R'.map (fun d => (if 0 ≤ dx then 1 else -1) * d))⟩ := by
    unfold pyMod
    rw [hto]
    simp only [okBind]
    rw [if_neg hvy0]
    rw [hdxh]
    simp only [okBind]
    rw [hloop]
    rfl
  refine ⟨_, hres, wf_mk_signed R' _ hR'v hR'ne hs, rfl, ?_⟩
  rw [to_int_mk_signed R' _ hR'v hR'ne hs]
  have hsign : ((if 0 ≤ dx then 1 else -1) : ℤ) = headSign x := by
    unfold headSign
    rw [hdx]
    simp only [List.headI]
    by_cases h1 : 0 ≤ dx
    · rw [if_pos h1, if_neg (by omega)]
    · rw [if_neg h1, if_pos (by omega)]
  have hR_val : valD R' = ((magVal x % magVal y : ℕ) : ℤ) := by
    have h0 : valD ([] : List ℤ) = 0 := rfl
    rw [h0] at heq
    have heq2 : valD (y.digits.map (fun d => |d|)) * valD q + valD R' =
        valD (x.digits.map (fun d => |d|)) := by
      rw [heq]
      ring
    have hq0 : 0 ≤ valD q := valD_nonneg hqv
    have hR0 : 0 ≤ valD R' := valD_nonneg hR'v
    have hnat : magVal y * (valD q).toNat + (valD R').toNat = magVal x := by
      have h1 : ((magVal y * (valD q).toNat + (valD R').toNat : ℕ) : ℤ) = ((magVal x : ℕ) : ℤ) := by
        push_cast
        rw [Int.toNat_of_nonneg hq0, Int.toNat_of_nonneg hR0, hxval, hDval]
        exact heq2
      exact_mod_cast h1
    have hRlt : (valD R').toNat < magVal y := by
      have h1 : valD R' < (magVal y : ℤ) := by rw [hDval]; exact hR'lt
      omega
    have hmod : magVal x % magVal y = (valD R').toNat := by
      rw [← hnat, Nat.mul_add_mod, Nat.mod_eq_of_lt hRlt]
    rw [hmod]
    exact (Int.toNat_of_nonneg hR0).symm
  rw [hR_val, hsign]

/-! ### Addition/subtraction: well-formedness of every successful result -/

theorem errBind {α β : Type} (e : PyErr) (f : α → Except PyErr β) :
    ((Except.error e : Except PyErr α) >>= f) = .error e := rfl

theorem wf_pyAbs {x : BigInt} (hx : WellFormed x) : WellFormed (pyAbs x) := by
  obtain ⟨hne, hmag, _, hhead⟩ := hx
  refine ⟨by simpa [pyAbs] using hne, ?_, Or.inl ?_, ?_⟩
  · intro d hd
    obtain ⟨e, he, rfl⟩ := List.mem_map.mp hd
    show |e|.natAbs < x.base
    rw [Int.natAbs_abs]
    exact hmag e he
  · intro d hd
    obtain ⟨e, he, rfl⟩ := List.mem_map.mp hd
    exact abs_nonneg e
  · show (x.digits.map (fun d => |d|)).head? ≠ some 0 ∨ x.digits.map (fun d => |d|) = [0]
    rcases hhead with h | h
    · cases hd : x.digits with
      | nil => exact absurd hd hne
      | cons d t =>
        left
        rw [hd] at h
        simp only [List.map_cons, List.head?_cons]
        intro hcon
        have h1 : |d| = 0 := by injection hcon
        have h2 : d = 0 := by simpa using h1
        rw [h2] at h
        simp at h
    · right
      rw [h]
      rfl

theorem wf_pyNeg {x : BigInt} (hx : WellFormed x) : WellFormed (pyNeg x) := by
  obtain ⟨hne, hmag, hsgn, hhead⟩ := hx
  refine ⟨by simpa [pyNeg] using hne, ?_, ?_, ?_⟩
  · intro d hd
    obtain ⟨e, he, rfl⟩ := List.mem_map.mp hd
    show (-e).natAbs < x.base
    rw [Int.natAbs_neg]
    exact hmag e he
  · rcases hsgn with h | h
    · right
      intro d hd
      obtain ⟨e, he, rfl⟩ := List.mem_map.mp hd
      have := h e he
      omega
    · left
      intro d hd
      obtain ⟨e, he, rfl⟩ := List.mem_map.mp hd
      have := h e he
      omega
  · show (x.digits.map (fun d => -d)).head? ≠ some 0 ∨ x.digits.map (fun d => -d) = [0]
    rcases hhead with h | h
    · cases hd : x.digits with
      | nil => exact absurd hd hne
      | cons d t =>
        left
        rw [hd] at h
        simp only [List.map_cons, List.head?_cons]
        intro hcon
        have h1 : -d = 0 := by injection hcon
        have h2 : d = 0 := by omega
        rw [h2] at h
        simp at h
    · right
      rw [h]
      rfl

theorem pyAbs_base (x : BigInt) : (pyAbs x).base = x.base := rfl

theorem pyNeg_base (x : BigInt) : (pyNeg x).base = x.base := rfl

theorem addLoop_valid : ∀ (n : ℕ) (a b : List ℤ) (c : ℤ),
    ValidD a → ValidD b → (c = 0 ∨ c = 1) → ValidD (addLoop 10 n a b c) := by
  intro n
  induction n with
  | zero =>
    intro a b c _ _ hc
    by_cases h : c ≠ 0
    · rw [show addLoop 10 0 a b c = [c] by rw [addLoop, if_pos h]]
      intro d hd
      simp only [List.mem_singleton] at hd
      omega
    · rw [show addLoop 10 0 a b c = [] by rw [addLoop, if_neg h]]
      intro d hd
      simp at hd
  | succ n ih =>
    intro a b c ha hb hc
    have hah := validD_headD ha
    have hbh := validD_headD hb
    have hrec := ih a.tail b.tail ((a.headD 0 + b.headD 0 + c) / 10)
      (validD_tail ha) (validD_tail hb) (by omega)
    intro d hd
    rw [show addLoop 10 (n + 1) a b c = (a.headD 0 + b.headD 0 + c) % (10 : ℕ) ::
        addLoop 10 n a.tail b.tail ((a.headD 0 + b.headD 0 + c) / (10 : ℕ)) from rfl] at hd
    rcases List.mem_cons.mp hd with h | h
    · subst h
      constructor <;> [skip; skip] <;> push_cast <;> omega
    · have h10 : ((10 : ℕ) : ℤ) = 10 := by norm_num
      rw [h10] at h
      exact hrec d h

theorem addLoop_ne_nil (n : ℕ) (a b : List ℤ) (c : ℤ) (hn : n ≠ 0) :
    addLoop 10 n a b c ≠ [] := by
  cases n with
  | zero => exact absurd rfl hn
  | succ n => simp [addLoop]

theorem addSub_ok : ∀ (fuel : ℕ) (op : AddSubOp) (x y r : BigInt),
    WellFormed x → WellFormed y → x.base = 10 → y.base = 10 →
    addSub fuel op x y = .ok r → WellFormed r ∧ r.base = 10 := by
  intro fuel
  induction fuel with
  | zero =>
    intro op x y r _ _ _ _ h
    exact absurd h (by simp [addSub])
  | succ fuel ih =>
    intro op x y r hx hy hbx hby h
    cases hdx : x.digits with
    | nil => exact absurd hdx hx.1
    | cons dx tx =>
    cases hdy : y.digits with
    | nil => exact absurd hdy hy.1
    | cons dy ty =>
    have hdxh : digitsHead x = .ok dx := by unfold digitsHead; rw [hdx]
    have hdyh : digitsHead y = .ok dy := by unfold digitsHead; rw [hdy]
    have hxabs : ValidD ((x.digits.map (fun d => |d|)).reverse) :=
      validD_reverse (wf_abs_validD hx hbx)
    have hyabs : ValidD ((y.digits.map (fun d => |d|)).reverse) :=
      validD_reverse (wf_abs_validD hy hby)
    have hlenx : (x.digits.map (fun d => |d|)).reverse.length ≠ 0 := by
      simp only [List.length_reverse, List.length_map]
      rw [hdx]
      simp
    cases op with
    | add =>
      simp only [addSub, hdxh, hdyh, okBind] at h
      by_cases h1 : dx < 0 ∧ 0 ≤ dy
      · rw [if_pos h1] at h
        exact ih .sub y (pyAbs x) r hy (wf_pyAbs hx) hby (by rw [pyAbs_base, hbx]) h
      · rw [if_neg h1] at h
        by_cases h2 : 0 ≤ dx ∧ dy < 0
        · rw [if_pos h2] at h
          exact ih .sub x (pyAbs y) r hx (wf_pyAbs hy) hbx (by rw [pyAbs_base, hby]) h
        · rw [if_neg h2] at h
          have hrr : r = ⟨10, normalize
              (((addLoop x.base (max (x.digits.map (fun d => |d|)).reverse.length
                  (y.digits.map (fun d => |d|)).reverse.length)
                  ((x.digits.map (fun d => |d|)).reverse)
                  ((y.digits.map (fun d => |d|)).reverse) 0).reverse).map
                (fun d => (if 0 ≤ dx then 1 else -1) * d))⟩ := by
            have h3 := h.symm
            injection h3
          subst hrr
          rw [hbx]
          refine ⟨wf_mk_signed _ _ ?_ ?_ ?_, rfl⟩
          · exact validD_reverse (addLoop_valid _ _ _ 0 hxabs hyabs (Or.inl rfl))
          · simp only [ne_eq, List.reverse_eq_nil_iff]
            exact addLoop_ne_nil _ _ _ 0 (by omega)
          · by_cases h4 : 0 ≤ dx <;> simp [h4]
    | sub =>
      simp only [addSub, hdxh, hdyh, okBind] at h
      by_cases h1 : dx < 0 ∧ dy < 0
      · rw [if_pos h1] at h
        exact ih .sub (pyAbs y) (pyAbs x) r (wf_pyAbs hy) (wf_pyAbs hx)
          (by rw [pyAbs_base, hby]) (by rw [pyAbs_base, hbx]) h
      · rw [if_neg h1] at h
        by_cases h2 : dx < 0
        · rw [if_pos h2] at h
          exact ih .sub (pyNeg (pyAbs x)) y r (wf_pyNeg (wf_pyAbs hx)) hy
            (by rw [pyNeg_base, pyAbs_base, hbx]) hby h
        · rw [if_neg h2] at h
          by_cases h3 : dy < 0
          · rw [if_pos h3] at h
            exact ih .add x (pyAbs y) r hx (wf_pyAbs hy) hbx (by rw [pyAbs_base, hby]) h
          · rw [if_neg h3] at h
            exact absurd h (by simp)

theorem add_ok {x y r : BigInt} (hx : WellFormed x) (hy : WellFormed y)
    (hbx : x.base = 10) (hby : y.base = 10) (h : add x y = .ok r) :
    WellFormed r ∧ r.base = 10 :=
  addSub_ok 1000 .add x y r hx hy hbx hby h

theorem sub_ok {x y r : BigInt} (hx : WellFormed x) (hy : WellFormed y)
    (hbx : x.base = 10) (hby : y.base = 10) (h : sub x y = .ok r) :
    WellFormed r ∧ r.base = 10 :=
  addSub_ok 1000 .sub x y r hx hy hbx hby h

/-! ### Multiplication: well-formedness of every successful result -/

theorem getD_valid {l : List ℤ} (h : ValidD l) (i : ℕ) : 0 ≤ l.getD i 0 ∧ l.getD i 0 < 10 := by
  by_cases hi : i < l.length
  · have h1 : l.getD i 0 = l.get ⟨i, hi⟩ := by
      simp [List.getD_eq_getElem?_getD, List.getElem?_eq_getElem hi]
    rw [h1]
    exact h _ (l.get_mem i hi)
  · have h1 : l.getD i 0 = 0 := by
      simp [List.getD_eq_getElem?_getD, List.getElem?_eq_none (by omega : l.length ≤ i)]
    rw [h1]
    omega

theorem set_valid {l : List ℤ} (h : ∀ e ∈ l, 0 ≤ e ∧ e < 10) {v : ℤ}
    (hv : 0 ≤ v ∧ v < 10) (i : ℕ) : ∀ e ∈ l.set i v, 0 ≤ e ∧ e < 10 := by
  intro e he
  rcases List.mem_or_eq_of_mem_set he with h1 | h1
  · exact h e h1
  · subst h1
    exact hv

theorem mulJ_bounds (ai : ℤ) (b : List ℤ) (i : ℕ) (hai : 0 ≤ ai ∧ ai < 10)
    (hb : ValidD b) : ∀ (j : ℕ) (rd : List ℤ) (c : ℤ),
    (∀ e ∈ rd, 0 ≤ e ∧ e < 10) → 0 ≤ c → c < 10 →
    (∀ e ∈ (mulJ 10 ai b i j rd c).1, 0 ≤ e ∧ e < 10) ∧
      0 ≤ (mulJ 10 ai b i j rd c).2 ∧ (mulJ 10 ai b i j rd c).2 < 10 ∧
      (mulJ 10 ai b i j rd c).1.length = rd.length := by
  intro j
  induction j with
  | zero =>
    intro rd c hrd hc0 hc1
    exact ⟨hrd, hc0, hc1, rfl⟩
  | succ j ih =>
    intro rd c hrd hc0 hc1
    have hbj := getD_valid hb j
    have hslot := getD_valid hrd (i + j + 1)
    have hprod0 : 0 ≤ ai * b.getD j 0 := mul_nonneg hai.1 hbj.1
    have hprod1 : ai * b.getD j 0 ≤ 81 := by nlinarith [hai.1, hai.2, hbj.1, hbj.2]
    have hm0 : 0 ≤ ai * b.getD j 0 + rd.getD (i + j + 1) 0 + c := by linarith [hslot.1]
    have hm1 : ai * b.getD j 0 + rd.getD (i + j + 1) 0 + c < 100 := by linarith [hslot.2]
    have hstep : mulJ 10 ai b i (j + 1) rd c =
        mulJ 10 ai b i j
          (rd.set (i + j + 1) ((ai * b.getD j 0 + rd.getD (i + j + 1) 0 + c) % ((10:ℕ):ℤ)))
          ((ai * b.getD j 0 + rd.getD (i + j + 1) 0 + c) / ((10:ℕ):ℤ)) := rfl
    rw [hstep]
    have h10 : ((10:ℕ):ℤ) = 10 := by norm_num
    rw [h10]
    have hrec := ih (rd.set (i + j + 1)
        ((ai * b.getD j 0 + rd.getD (i + j + 1) 0 + c) % 10))
      ((ai * b.getD j 0 + rd.getD (i + j + 1) 0 + c) / 10)
      (set_valid hrd (by omega) _) (by omega) (by omega)
    refine ⟨hrec.1, hrec.2.1, hrec.2.2.1, ?_⟩
    rw [hrec.2.2.2, List.length_set]

theorem mulI_bounds (a b : List ℤ) (ha : ValidD a) (hb : ValidD b) :
    ∀ (i : ℕ) (rd : List ℤ), (∀ e ∈ rd, 0 ≤ e ∧ e < 10) →
    (∀ e ∈ mulI 10 a b i rd, 0 ≤ e ∧ e < 10) ∧ (mulI 10 a b i rd).length = rd.length := by
  intro i
  induction i with
  | zero =>
    intro rd hrd
    exact ⟨hrd, rfl⟩
  | succ i ih =>
    intro rd hrd
    have hai := getD_valid ha i
    have hJ := mulJ_bounds (a.getD i 0) b i hai hb b.length rd 0 hrd (by omega) (by omega)
    have hstep : mulI 10 a b (i + 1) rd =
        mulI 10 a b i
          ((mulJ 10 (a.getD i 0) b i b.length rd 0).1.set i
            (mulJ 10 (a.getD i 0) b i b.length rd 0).2) := rfl
    rw [hstep]
    have hrec := ih ((mulJ 10 (a.getD i 0) b i b.length rd 0).1.set i
        (mulJ 10 (a.getD i 0) b i b.length rd 0).2)
      (set_valid hJ.1 ⟨hJ.2.1, hJ.2.2.1⟩ i)
    refine ⟨hrec.1, ?_⟩
    rw [hrec.2, List.length_set, hJ.2.2.2]

theorem mul_ok {x y r : BigInt} (hx : WellFormed x) (hy : WellFormed y)
    (hbx : x.base = 10) (hby : y.base = 10) (h : mul x y = .ok r) :
    WellFormed r ∧ r.base = 10 := by
  cases hdx : x.digits with
  | nil => exact absurd hdx hx.1
  | cons dx tx =>
  cases hdy : y.digits with
  | nil => exact absurd hdy hy.1
  | cons dy ty =>
  have hdxh : digitsHead x = .ok dx := by unfold digitsHead; rw [hdx]
  have hdyh : digitsHead y = .ok dy := by unfold digitsHead; rw [hdy]
  simp only [mul, hdxh, hdyh, okBind] at h
  have hxabs : ValidD (x.digits.map (fun d => |d|)) := wf_abs_validD hx hbx
  have hyabs : ValidD (y.digits.map (fun d => |d|)) := wf_abs_validD hy hby
  have hrep : ∀ e ∈ List.replicate ((x.digits.map (fun d => |d|)).length +
      (y.digits.map (fun d => |d|)).length) (0 : ℤ), 0 ≤ e ∧ e < 10 := by
    intro e he
    have := List.eq_of_mem_replicate he
    omega
  have hI := mulI_bounds (x.digits.map (fun d => |d|)) (y.digits.map (fun d => |d|))
    hxabs hyabs (x.digits.map (fun d => |d|)).length
    (List.replicate ((x.digits.map (fun d => |d|)).length +
      (y.digits.map (fun d => |d|)).length) 0) hrep
  have hrr : r = ⟨10, normalize
      ((mulI x.base (x.digits.map (fun d => |d|)) (y.digits.map (fun d => |d|))
        (x.digits.map (fun d => |d|)).length
        (List.replicate ((x.digits.map (fun d => |d|)).length +
          (y.digits.map (fun d => |d|)).length) 0)).map
        (fun d => ((if dx < 0 then -1 else 1) * (if dy < 0 then -1 else 1)) * d))⟩ := by
    have h3 := h.symm
    injection h3
  subst hrr
  rw [hbx]
  refine ⟨wf_mk_signed _ _ hI.1 ?_ ?_, rfl⟩
  · intro h0
    have hlen := congrArg List.length h0
    rw [hI.2] at hlen
    simp only [List.length_replicate, List.length_map, List.length_nil] at hlen
    rw [hdx] at hlen
    simp at hlen
  · by_cases h4 : dx < 0 <;> by_cases h5 : dy < 0 <;> simp [h4, h5]

/-! ### Factorial: well-formedness of every successful result -/

theorem one_wf : WellFormed ⟨10, [1]⟩ := by decide

theorem factLoop_ok : ∀ (fuel : ℕ) (bound : ℤ) (res cur r : BigInt),
    WellFormed res → res.base = 10 → WellFormed cur → cur.base = 10 →
    factLoop bound fuel res cur = .ok r → WellFormed r ∧ r.base = 10 := by
  intro fuel
  induction fuel with
  | zero =>
    intro bound res cur r _ _ _ _ h
    exact absurd h (by simp [factLoop])
  | succ fuel ih =>
    intro bound res cur r hres hbres hcur hbcur h
    have hto := to_int_eq_headSign cur hcur.1
    simp only [factLoop, hto, okBind] at h
    by_cases hc : (magVal cur : ℤ) * headSign cur ≤ bound
    · rw [if_pos hc] at h
      cases hm : mul res cur with
      | error e =>
        rw [hm, errBind] at h
        exact absurd h (by simp)
      | ok res' =>
        rw [hm, okBind] at h
        cases ha : add cur ⟨10, [1]⟩ with
        | error e =>
          rw [ha, errBind] at h
          exact absurd h (by simp)
        | ok cur' =>
          rw [ha, okBind] at h
          have hres' := mul_ok hres hcur hbres hbcur hm
          have hcur' := add_ok hcur one_wf hbcur rfl ha
          exact ih bound res' cur' r hres'.1 hres'.2 hcur'.1 hcur'.2 h
    · rw [if_neg hc] at h
      have h3 := h.symm
      injection h3 with h4
      rw [h4]
      exact ⟨hres, hbres⟩

theorem factorial_ok {x r : BigInt} (hx : WellFormed x) (hbx : x.base = 10)
    (h : factorial x = .ok r) : WellFormed r ∧ r.base = 10 := by
  have hto := to_int_eq_headSign x hx.1
  simp only [factorial, hto, okBind] at h
  by_cases h1 : (magVal x : ℤ) * headSign x < 0
  · rw [if_pos h1] at h
    exact absurd h (by simp)
  · rw [if_neg h1] at h
    by_cases h2 : (magVal x : ℤ) * headSign x ≤ 1
    · rw [if_pos h2] at h
      have h3 := h.symm
      injection h3 with h4
      rw [h4]
      exact ⟨one_wf, rfl⟩
    · rw [if_neg h2] at h
      exact factLoop_ok _ _ _ _ r one_wf rfl one_wf rfl h

/-! ### Division and modulo: well-formedness of every successful result -/

theorem floordiv_zero_check {x y : BigInt} (hy : WellFormed y) (hnz : magVal y = 0) :
    floordiv x y = .error .divisionByZero ∧ pyMod x y = .error .divisionByZero := by
  have hto := to_int_eq_headSign y hy.1
  rw [hnz] at hto
  have hto' : to_int y = .ok 0 := by
    rw [hto]
    norm_num
  constructor
  · unfold floordiv
    rw [hto']
    simp only [okBind]
    simp
  · unfold pyMod
    rw [hto']
    simp only [okBind]
    simp

theorem floordiv_wf {x y r : BigInt} (hx : WellFormed x) (hy : WellFormed y)
    (hbx : x.base = 10) (hby : y.base = 10) (h : floordiv x y = .ok r) :
    WellFormed r := by
  by_cases hnz : magVal y = 0
  · have h1 := (floordiv_zero_check (x := x) hy hnz).1
    rw [h1] at h
    exact absurd h (by simp)
  · obtain ⟨r', hr', hwf, _, _⟩ := floordiv_ok x y hx hy hbx hby hnz
    rw [h] at hr'
    injection hr' with h4
    rw [h4]
    exact hwf

theorem pyMod_wf {x y r : BigInt} (hx : WellFormed x) (hy : WellFormed y)
    (hbx : x.base = 10) (hby : y.base = 10) (h : pyMod x y = .ok r) :
    WellFormed r := by
  by_cases hnz : magVal y = 0
  · have h1 := (floordiv_zero_check (x := x) hy hnz).2
    rw [h1] at h
    exact absurd h (by simp)
  · obtain ⟨r', hr', hwf, _, _⟩ := pyMod_ok x y hx hy hbx hby hnz
    rw [h] at hr'
    injection hr' with h4
    rw [h4]
    exact hwf

/-! ### Every binary operation builds its result with the default base 10 -/

theorem addSub_base : ∀ (fuel : ℕ) (op : AddSubOp) (x y r : BigInt),
    addSub fuel op x y = .ok r → r.base = 10 := by
  intro fuel
  induction fuel with
  | zero =>
    intro op x y r h
    exact absurd h (by simp [addSub])
  | succ fuel ih =>
    intro op x y r h
    cases hdx : digitsHead x with
    | error e =>
      simp only [addSub, hdx, errBind] at h
      exact absurd h (by simp)
    | ok dx =>
    cases hdy : digitsHead y with
    | error e =>
      simp only [addSub, hdx, okBind, hdy, errBind] at h
      exact absurd h (by simp)
    | ok dy =>
    cases op with
    | add =>
      simp only [addSub, hdx, hdy, okBind] at h
      split at h
      · exact ih .sub y (pyAbs x) r h
      · split at h
        · exact ih .sub x (pyAbs y) r h
        · have h3 := h.symm
          injection h3 with h4
          rw [h4]
    | sub =>
      simp only [addSub, hdx, hdy, okBind] at h
      split at h
      · exact ih .sub (pyAbs y) (pyAbs x) r h
      · split at h
        · exact ih .sub (pyNeg (pyAbs x)) y r h
        · split at h
          · exact ih .add x (pyAbs y) r h
          · exact absurd h (by simp)

theorem mul_base (x y r : BigInt) (h : mul x y = .ok r) : r.base = 10 := by
  cases hdx : digitsHead x with
  | error e =>
    simp only [mul, hdx, errBind] at h
    exact absurd h (by simp)
  | ok dx =>
  cases hdy : digitsHead y with
  | error e =>
    simp only [mul, hdx, okBind, hdy, errBind] at h
    exact absurd h (by simp)
  | ok dy =>
  simp only [mul, hdx, hdy, okBind] at h
  have h3 := h.symm
  injection h3 with h4
  rw [h4]

theorem floordiv_base (x y r : BigInt) (h : floordiv x y = .ok r) : r.base = 10 := by
  cases hto : to_int y with
  | error e =>
    simp only [floordiv, hto, errBind] at h
    exact absurd h (by simp)
  | ok vy =>
  simp only [floordiv, hto, okBind] at h
  split at h
  · exact absurd h (by simp)
  · cases hdx : digitsHead x with
    | error e =>
      rw [hdx, errBind] at h
      exact absurd h (by simp)
    | ok dx =>
    rw [hdx, okBind] at h
    cases hdy : digitsHead y with
    | error e =>
      rw [hdy, errBind] at h
      exact absurd h (by simp)
    | ok dy =>
    rw [hdy, okBind] at h
    cases hdl : divLoop (y.digits.map (fun d => |d|)) divFuel (x.digits.map (fun d => |d|)) []
        with
    | none =>
      rw [hdl] at h
      exact absurd h (by simp)
    | some p =>
      obtain ⟨q, R'⟩ := p
      rw [hdl] at h
      have h3 := h.symm
      injection h3 with h4
      rw [h4]

theorem pyMod_base (x y r : BigInt) (h : pyMod x y = .ok r) : r.base = 10 := by
  cases hto : to_int y with
  | error e =>
    simp only [pyMod, hto, errBind] at h
    exact absurd h (by simp)
  | ok vy =>
  simp only [pyMod, hto, okBind] at h
  split at h
  · exact absurd h (by simp)
  · cases hdx : digitsHead x with
    | error e =>
      rw [hdx, errBind] at h
      exact absurd h (by simp)
    | ok dx =>
    rw [hdx, okBind] at h
    cases hdl : divLoop (y.digits.map (fun d => |d|)) divFuel (x.digits.map (fun d => |d|)) []
        with
    | none =>
      rw [hdl] at h
      exact absurd h (by simp)
    | some p =>
      obtain ⟨q, R'⟩ := p
      rw [hdl] at h
      have h3 := h.symm
      injection h3 with h4
      rw [h4]

/-! ### Division by zero is signaled exactly when the divisor's value is zero -/

theorem floordiv_divzero_iff (x y : BigInt) (hy : WellFormed y) :
    floordiv x y = .error .divisionByZero ↔ to_int y = .ok 0 := by
  have hto := to_int_eq_headSign y hy.1
  by_cases hnz : magVal y = 0
  · have h1 := (floordiv_zero_check (x := x) hy hnz).1
    rw [h1, hto, hnz]
    constructor
    · intro _
      norm_num
    · intro _
      rfl
  · have hmy : (magVal y : ℤ) ≠ 0 := by exact_mod_cast hnz
    have hvy : ((magVal y : ℤ) * headSign y) ≠ 0 := by
      rcases headSign_cases y with h | h <;> rw [h] <;> omega
    constructor
    · intro hcon
      simp only [floordiv, hto, okBind] at hcon
      rw [if_neg hvy] at hcon
      cases hxd : x.digits with
      | nil =>
        have hdxh : digitsHead x = .error .indexError := by unfold digitsHead; rw [hxd]
        rw [hdxh, errBind] at hcon
        simp at hcon
      | cons dx tx =>
        have hdxh : digitsHead x = .ok dx := by unfold digitsHead; rw [hxd]
        rw [hdxh, okBind] at hcon
        cases hyd : y.digits with
        | nil => exact absurd hyd hy.1
        | cons dy ty =>
          have hdyh : digitsHead y = .ok dy := by unfold digitsHead; rw [hyd]
          rw [hdyh, okBind] at hcon
          cases hdl : divLoop (y.digits.map (fun d => |d|)) divFuel
              (x.digits.map (fun d => |d|)) [] with
          | none =>
            rw [hdl] at hcon
            simp at hcon
          | some p =>
            obtain ⟨q, R'⟩ := p
            rw [hdl] at hcon
            exact Except.noConfusion hcon
    · intro hok
      rw [hto] at hok
      have h4 : (magVal y : ℤ) * headSign y = 0 := by injection hok
      exact absurd h4 hvy

theorem pyMod_divzero_iff (x y : BigInt) (hy : WellFormed y) :
    pyMod x y = .error .divisionByZero ↔ to_int y = .ok 0 := by
  have hto := to_int_eq_headSign y hy.1
  by_cases hnz : magVal y = 0
  · have h1 := (floordiv_zero_check (x := x) hy hnz).2
    rw [h1, hto, hnz]
    constructor
    · intro _
      norm_num
    · intro _
      rfl
  · have hmy : (magVal y : ℤ) ≠ 0 := by exact_mod_cast hnz
    have hvy : ((magVal y : ℤ) * headSign y) ≠ 0 := by
      rcases headSign_cases y with h | h <;> rw [h] <;> omega
    constructor
    · intro hcon
      simp only [pyMod, hto, okBind] at hcon
      rw [if_neg hvy] at hcon
      cases hxd : x.digits with
      | nil =>
        have hdxh : digitsHead x = .error .indexError := by unfold digitsHead; rw [hxd]
        rw [hdxh, errBind] at hcon
        simp at hcon
      | cons dx tx =>
        have hdxh : digitsHead x = .ok dx := by unfold digitsHead; rw [hxd]
        rw [hdxh, okBind] at hcon
        cases hdl : divLoop (y.digits.map (fun d => |d|)) divFuel
            (x.digits.map (fun d => |d|)) [] with
        | none =>
          rw [hdl] at hcon
          simp at hcon
        | some p =>
          obtain ⟨q, R'⟩ := p
          rw [hdl] at hcon
          exact Except.noConfusion hcon
    · intro hok
      rw [hto] at hok
      have h4 : (magVal y : ℤ) * headSign y = 0 := by injection hok
      exact absurd h4 hvy

/-! ### The claims -/

/-- Claim C1.  The claim says: for every base in `[2, 36]` and every numeral
string of an optional `-` followed by digits valid in that base, construction
succeeds, storing negated digit magnitudes for a negative sign, because
validation accepts any digit with `abs(digit) < base`.  The code instead
validates `digit < 0 or digit >= base` (line 24), so every negative numeral
string is rejected: `from_str` itself produces the negated digits `[-5]` for
`"-5"`, and then `__init__`'s validation raises the out-of-range error.  This
theorem evaluates the code at that failing input (and at `"-1"` in base 2). -/
theorem claimC1_negative_string_construction :
    from_str ['-', '5'] 10 = .ok [-5] ∧
    ofStr ['-', '5'] 10 = .error .outOfRangeDigit ∧
    ofStr ['-', '1'] 2 = .error .outOfRangeDigit ∧
    ofStr ['5'] 10 = .ok ⟨10, [5]⟩ := by
  refine ⟨by decide, by decide, by decide, by decide⟩

/-- Claim C2.  The claim says: for well-formed non-negative `self`, `other`
with `|self| < |other|`, `subtract(self, other)` returns the negation of
`subtract(other, self)`; in particular `subtract(5, 9) = -4`.  The code's
`__sub__` evaluates `abs(self) < abs(other)` at line 121, but the class
defines no `__lt__`, so Python raises `TypeError` for every pair of
non-negative operands; the claimed result `-4` is never produced.  This
theorem evaluates the code at the claim's own concrete instance. -/
theorem claimC2_subtract_magnitude_case :
    (do
      let a ← ofStr ['5'] 10
      let b ← ofStr ['9'] 10
      sub a b) = .error .typeError ∧
    (do
      let a ← ofStr ['9'] 10
      let b ← ofStr ['5'] 10
      sub a b) = .error .typeError := by
  refine ⟨by decide, by decide⟩

/-- Claim C3, counterexample.  In base 16, `Construct("10") = 16` divided by
`Construct("2") = 2` should give quotient 8, but `_list_subtract` borrows with
the constant 10 ("Assuming base 10 for subtraction"), and the code returns the
digit list `[5]` (value 5): the claim is false for bases other than 10. -/
theorem claimC3_counterexample :
    ofStr ['1', '0'] 16 = .ok ⟨16, [1, 0]⟩ ∧
    ofStr ['2'] 16 = .ok ⟨16, [2]⟩ ∧
    to_int ⟨16, [1, 0]⟩ = .ok 16 ∧
    to_int ⟨16, [2]⟩ = .ok 2 ∧
    floordiv ⟨16, [1, 0]⟩ ⟨16, [2]⟩ = .ok ⟨10, [5]⟩ ∧
    to_int ⟨10, [5]⟩ = .ok 5 ∧ (5 : ℤ) ≠ 16 / 2 := by
  refine ⟨by decide, by decide, by decide, by decide, by decide, by decide, by decide⟩

/-- Claim C3, amended to base 10: for well-formed base-10 operands with a
non-zero divisor, `floorDivide` and `modulo` succeed and compute the correct
truncated quotient and remainder of the operands' magnitudes by
digit-at-a-time long division, the quotient signed by the product of the
operand head-signs and the remainder by the dividend's sign. -/
theorem claimC3_long_division_base10 (x y : BigInt) (hx : WellFormed x)
    (hy : WellFormed y) (hbx : x.base = 10) (hby : y.base = 10)
    (hnz : magVal y ≠ 0) :
    ∃ q r : BigInt, floordiv x y = .ok q ∧ pyMod x y = .ok r ∧
      to_int q = .ok ((headSign x * headSign y) * ((magVal x / magVal y : ℕ) : ℤ)) ∧
      to_int r = .ok (headSign x * ((magVal x % magVal y : ℕ) : ℤ)) := by
  obtain ⟨q, hq, _, _, hqv⟩ := floordiv_ok x y hx hy hbx hby hnz
  obtain ⟨r, hr, _, _, hrv⟩ := pyMod_ok x y hx hy hbx hby hnz
  exact ⟨q, r, hq, hr, hqv, hrv⟩

/-- Claim C3, witness: `100 // 7 = 14` and `100 % 7 = 2`, through the amended
theorem at the concrete input of the specification's own scenario. -/
theorem claimC3_witness :
    to_int ⟨10, [1, 4]⟩ = .ok 14 ∧ to_int ⟨10, [2]⟩ = .ok 2 := by
  obtain ⟨q, r, hq, hr, hqv, hrv⟩ := claimC3_long_division_base10 ⟨10, [1, 0, 0]⟩ ⟨10, [7]⟩
    (by decide) (by decide) rfl rfl (by decide)
  have h2 : floordiv ⟨10, [1, 0, 0]⟩ ⟨10, [7]⟩ = .ok ⟨10, [1, 4]⟩ := by decide
  have h3 : pyMod ⟨10, [1, 0, 0]⟩ ⟨10, [7]⟩ = .ok ⟨10, [2]⟩ := by decide
  rw [h2] at hq
  rw [h3] at hr
  injection hq with hq4
  injection hr with hr4
  rw [← hq4] at hqv
  rw [← hr4] at hrv
  exact ⟨hqv.trans (by decide), hrv.trans (by decide)⟩

/-- Claim C4.  The claim says construction from a negative native integer
produces a well-formed all-negative representation.  The code's digit loop
runs only `while value > 0`, so `BigInt(-5)` passes validation with an empty
digit list: construction "succeeds" but the result is not well-formed and
`to_int` on it raises `IndexError`. -/
theorem claimC4_negative_int_construction :
    ofInt (-5) 10 = .ok ⟨10, []⟩ ∧ ¬ WellFormed ⟨10, []⟩ ∧
    to_int ⟨10, []⟩ = .error .indexError ∧
    ofInt 5 10 = .ok ⟨10, [5]⟩ := by
  refine ⟨by decide, by decide, by decide, by decide⟩

/-- Claim C5.  The claim says `toDisplayString(Construct(s)) = s` for every
normalized numeral string `s` (optional `-`, digits rendered as single
base-appropriate characters).  The code rejects `Construct("-4")` outright
(the C1 validation bug), and for base 16 renders digit value 10 as the
two-character decimal `"10"` rather than `"a"`; round-tripping holds only for
unsigned decimal-digit strings, as the last conjunct illustrates. -/
theorem claimC5_display_round_trip :
    ofStr ['-', '4'] 10 = .error .outOfRangeDigit ∧
    ofStr ['a'] 16 = .ok ⟨16, [10]⟩ ∧
    toStr ⟨16, [10]⟩ = ['1', '0'] ∧
    toStr ⟨10, [1, 2, 3]⟩ = ['1', '2', '3'] ∧
    ofStr ['1', '2', '3'] 10 = .ok ⟨10, [1, 2, 3]⟩ := by
  refine ⟨by decide, by decide, by decide, by decide, by decide⟩

/-- Claim C6.  The claim says `add(multiply(floorDivide(a,b), b), modulo(a,b))
equals a` for every same-base pair with non-zero `b`.  For `a = -4`, `b = 2`
the code computes `floorDivide = -2`, `multiply = -4` and `modulo = 0`, and
the final addition delegates to `__sub__` (`other - abs(self)`), which raises
`TypeError` at the undefined `<` comparison: the relation crashes instead of
returning `a`. -/
theorem claimC6_division_multiplication_relation :
    (do
      let a0 ← ofStr ['4'] 10
      let b ← ofStr ['2'] 10
      let a := pyNeg a0
      let q ← floordiv a b
      let m ← mul q b
      let r ← pyMod a b
      add m r) = .error .typeError ∧
    floordiv ⟨10, [-4]⟩ ⟨10, [2]⟩ = .ok ⟨10, [-2]⟩ ∧
    mul ⟨10, [-2]⟩ ⟨10, [2]⟩ = .ok ⟨10, [-4]⟩ ∧
    pyMod ⟨10, [-4]⟩ ⟨10, [2]⟩ = .ok ⟨10, [0]⟩ ∧
    add ⟨10, [-4]⟩ ⟨10, [0]⟩ = .error .typeError := by
  refine ⟨by decide, by decide, by decide, by decide, by decide⟩

/-- Claim C7: for every dividend and every well-formed divisor, `floorDivide`
and `modulo` fail with the division-by-zero condition exactly when the
divisor's native-integer value is zero; the check is the first thing either
operation does, so no division work happens first. -/
theorem claimC7_division_by_zero_iff (x y : BigInt) (hy : WellFormed y) :
    (floordiv x y = .error .divisionByZero ↔ to_int y = .ok 0) ∧
    (pyMod x y = .error .divisionByZero ↔ to_int y = .ok 0) :=
  ⟨floordiv_divzero_iff x y hy, pyMod_divzero_iff x y hy⟩

/-- Claim C7, witness: dividing `5` by the canonical zero raises the
division-by-zero condition. -/
theorem claimC7_witness :
    (floordiv ⟨10, [5]⟩ ⟨10, [0]⟩ = .error .divisionByZero ↔
      to_int ⟨10, [0]⟩ = .ok 0) ∧
    (pyMod ⟨10, [5]⟩ ⟨10, [0]⟩ = .error .divisionByZero ↔
      to_int ⟨10, [0]⟩ = .ok 0) :=
  claimC7_division_by_zero_iff ⟨10, [5]⟩ ⟨10, [0]⟩ (by decide)

/-- Claim C8.  The claim says factorial fails with the invalid-domain
condition for every negative operand — in particular `factorial(Construct(-1))`
— and computes the product `1..n` for non-negative operands.  For a
well-formed negative value such as `-1 = ⟨10, [-1]⟩` the domain error is
raised, and `factorial(Construct("5")) = 120`; but `Construct(-1)` itself
builds the malformed empty digit list (the C4 bug), so `factorial` on it
raises `IndexError` from `to_int`, not the claimed InvalidDomain. -/
theorem claimC8_factorial_domain :
    ofInt (-1) 10 = .ok ⟨10, []⟩ ∧
    factorial ⟨10, []⟩ = .error .indexError ∧
    factorial ⟨10, [-1]⟩ = .error .invalidDomain ∧
    (do
      let x ← ofStr ['5'] 10
      factorial x) = .ok ⟨10, [1, 2, 0]⟩ ∧
    factorial ⟨10, [0]⟩ = .ok ⟨10, [1]⟩ := by
  refine ⟨by decide, by decide, by decide, by decide, by decide⟩

/-- Claim C9, counterexample.  `e + 0` on well-formed base-16 operands
returns `⟨base 10, [14]⟩` — a digit of magnitude 14 under base 10 — without
failing, violating the digit-range invariant: the claim is false for operands
of bases other than 10. -/
theorem claimC9_counterexample :
    WellFormed ⟨16, [14]⟩ ∧ WellFormed ⟨16, [0]⟩ ∧
    add ⟨16, [14]⟩ ⟨16, [0]⟩ = .ok ⟨10, [14]⟩ ∧
    ¬ WellFormed ⟨10, [14]⟩ := by
  refine ⟨by decide, by decide, by decide, by decide⟩

/-- Claim C9, amended to base 10: every operation (add, subtract, multiply,
floor-divide, modulo, negate, magnitude, factorial) on well-formed base-10
operands either fails or returns a BigNumber satisfying all the
representation invariants (non-empty digits, digit magnitudes below the base,
uniform digit signs, no leading zero except the canonical `[0]`). -/
theorem claimC9_invariants (x y : BigInt) (hx : WellFormed x) (hy : WellFormed y)
    (hbx : x.base = 10) (hby : y.base = 10) :
    (∀ r, add x y = .ok r → WellFormed r) ∧
    (∀ r, sub x y = .ok r → WellFormed r) ∧
    (∀ r, mul x y = .ok r → WellFormed r) ∧
    (∀ r, floordiv x y = .ok r → WellFormed r) ∧
    (∀ r, pyMod x y = .ok r → WellFormed r) ∧
    WellFormed (pyNeg x) ∧ WellFormed (pyAbs x) ∧
    (∀ r, factorial x = .ok r → WellFormed r) :=
  ⟨fun r h => (add_ok hx hy hbx hby h).1,
   fun r h => (sub_ok hx hy hbx hby h).1,
   fun r h => (mul_ok hx hy hbx hby h).1,
   fun r h => floordiv_wf hx hy hbx hby h,
   fun r h => pyMod_wf hx hy hbx hby h,
   wf_pyNeg hx, wf_pyAbs hx,
   fun r h => (factorial_ok hx hbx h).1⟩

/-- Claim C9, witness: `5 + 3 = 8` on well-formed base-10 operands yields the
well-formed `⟨10, [8]⟩`, through the amended theorem. -/
theorem claimC9_witness : WellFormed ⟨10, [8]⟩ :=
  (claimC9_invariants ⟨10, [5]⟩ ⟨10, [3]⟩ (by decide) (by decide) rfl rfl).1
    ⟨10, [8]⟩ (by decide)

/-- Claim C10: every successful result of the five binary operations carries
the constructor's default base 10, whatever the operands' bases, while negate
and magnitude copy the operand's base. -/
theorem claimC10_result_base_ten (a b r : BigInt) :
    (add a b = .ok r → r.base = 10) ∧
    (sub a b = .ok r → r.base = 10) ∧
    (mul a b = .ok r → r.base = 10) ∧
    (floordiv a b = .ok r → r.base = 10) ∧
    (pyMod a b = .ok r → r.base = 10) ∧
    (pyNeg a).base = a.base ∧ (pyAbs a).base = a.base :=
  ⟨addSub_base 1000 .add a b r, addSub_base 1000 .sub a b r, mul_base a b r,
   floordiv_base a b r, pyMod_base a b r, rfl, rfl⟩

/-- Claim C10, witness: adding two base-16 operands yields a base-10 result. -/
theorem claimC10_witness : (BigInt.mk 10 [2]).base = 10 :=
  (claimC10_result_base_ten ⟨16, [1]⟩ ⟨16, [1]⟩ ⟨10, [2]⟩).1 (by decide)

end BigInt
